import Mathlib

/-!
# Verification of the `bsfh.sedmodel` parameter/prior/posterior substrate

Shallow embedding of `src/bsfh/sedmodel.py` (classes `ThetaParameters` and
`SedModel`).  Conventions of the embedding:

* A numpy array of rationals is modelled as a total function `ℕ → ℚ`;
  statements about an array of length `n` are restricted to indices `i < n`.
* The `theta_desc` dictionary is modelled as a `List Block` — the list order
  models the (fixed, per-instance) iteration order of the Python dict, and
  the uniqueness of dict keys is carried as an explicit `Nodup`-style
  hypothesis where a proof needs it.
* `prior_args` keyword dictionaries are modelled as association lists from
  `String` to `List ℚ`; a Python scalar argument is modelled as a singleton
  list (numpy's `np.size` of a scalar is `1`, matching `List.length`).
* Prior log-densities may be `-inf`/`inf`/`nan` (e.g. a uniform prior
  evaluated out of support), so log-probability scalars live in the four-way
  value domain `FVal` with IEEE-style absorbing addition; positions (`theta`
  vectors) themselves are finite rationals.
* A `KeyError` raised by a missing dictionary entry is modelled by `Option`:
  the embedded operation returns `none` exactly where the Python raises.
* The unbounded `while` loop of `check_constrained` is modelled with an
  explicit fuel parameter; `none` means the loop has not finished within the
  given fuel.  Non-termination is expressed as `∀ fuel, ... = none`.
-/

/-- Keyword-argument dictionary (`prior_args`): association list from names
to (vectors of) rational values.  A scalar is a singleton list. -/
def PArgs : Type := List (String × List ℚ)

/-- Dictionary lookup in a `PArgs`; `none` models a Python `KeyError`. -/
def lookupPA (a : PArgs) (k : String) : Option (List ℚ) :=
  (List.find? (fun p => p.1 == k) a).map (fun p => p.2)

/-- Value domain for log-probability scalars: finite rational, `+inf`,
`-inf`, or `nan`, with IEEE-style arithmetic on the operations the source
uses.  (Floating-point rounding itself is out of scope; only the
finite/infinite/nan distinction matters to the source's control flow.) -/
inductive FVal : Type
  | fin (q : ℚ)
  | pinf
  | ninf
  | nan
deriving DecidableEq

/-- IEEE-style addition on `FVal`: `nan` absorbs, opposite infinities give
`nan`, an infinity absorbs finite values. -/
def FVal.add : FVal → FVal → FVal
  | FVal.nan, _ => FVal.nan
  | _, FVal.nan => FVal.nan
  | FVal.pinf, FVal.ninf => FVal.nan
  | FVal.ninf, FVal.pinf => FVal.nan
  | FVal.pinf, _ => FVal.pinf
  | _, FVal.pinf => FVal.pinf
  | FVal.ninf, _ => FVal.ninf
  | _, FVal.ninf => FVal.ninf
  | FVal.fin a, FVal.fin b => FVal.fin (a + b)

/-- `np.isfinite` on an `FVal` scalar: true only for finite values. -/
def FVal.isFinite : FVal → Bool
  | FVal.fin _ => true
  | _ => false

/-- `np.sum` over a 1-d array of log-density values (sum starts from `0`,
as numpy's sum of an empty array is `0.0`). -/
def npSum (l : List FVal) : FVal := l.foldl FVal.add (FVal.fin 0)

/-- One entry of the `theta_desc` dictionary (spec: *PriorSpec*): the key
(`name`), the slice data `i0`/`N`, the prior callable and its keyword
arguments, the optional prior-gradient callable, and the optional reflection
bounds `lower`/`upper`.  Callables are opaque functions; the sub-vector they
receive is passed as a function of the component index `0 ≤ k < N`. -/
structure Block where
  name : String
  i0 : ℕ
  N : ℕ
  prior_function : (ℕ → ℚ) → PArgs → List FVal
  prior_gradient_function : Option ((ℕ → ℚ) → PArgs → (ℕ → ℚ))
  prior_args : PArgs
  lower : Option ℚ
  upper : Option ℚ

/-- The flat-vector index `i` lies in the block's slice `[i0, i0+N)`. -/
def owns (b : Block) (i : ℕ) : Prop := b.i0 ≤ i ∧ i < b.i0 + b.N

instance (b : Block) (i : ℕ) : Decidable (owns b i) := by
  unfold owns; infer_instance

/-- `self.ndim` as computed in `ThetaParameters.__init__`: starts at `0`
and accumulates `v['N']` over the descriptor entries. -/
def ndimD (desc : List Block) : ℕ := desc.foldl (fun n b => n + b.N) 0

/-- The sub-vector `theta[i0:i0+N]` of a flat vector, as a function of the
in-block component index. -/
def subvecF (theta : ℕ → ℚ) (b : Block) : ℕ → ℚ := fun k => theta (b.i0 + k)

/-- Slice assignment `dest[start:start+len] = vals` on a function-array:
indices in the slice read from `vals`, the rest read from `dest`. -/
def writeSliceF {α : Type} (dest : ℕ → α) (start : ℕ) (vals : ℕ → α) (len : ℕ) :
    ℕ → α :=
  fun i => if start ≤ i ∧ i < start + len then vals (i - start) else dest i

/-- Boolean interval-disjointness of two blocks' slices. -/
def blockDisjB (a b : Block) : Bool :=
  decide (a.i0 + a.N ≤ b.i0) || decide (b.i0 + b.N ≤ a.i0)

/-- Boolean pairwise test on a list. -/
def pairwiseB {α : Type} (f : α → α → Bool) : List α → Bool
  | [] => true
  | a :: t => t.all (f a) && pairwiseB f t

/-- The slices of the descriptor are pairwise disjoint (the spec's
"no overlaps" configuration invariant). -/
def disjointDescB (desc : List Block) : Bool := pairwiseB blockDisjB desc

/-- Every index below `ndim` is owned by some block (the spec's "no gaps"
configuration invariant). -/
def coversB (desc : List Block) : Bool :=
  (List.range (ndimD desc)).all fun i => desc.any fun b => decide (owns b i)

/-- The descriptor's names are pairwise distinct (automatic for a Python
dict, whose keys are unique; explicit here because the dict is modelled as
a list of entries). -/
def nodupNamesB : List Block → Bool
  | [] => true
  | b :: t => (t.all fun c => !(c.name == b.name)) && nodupNamesB t

/-- A two-sided reflection bound interval has positive width (blocks with
at most one bound are unconstrained here). -/
def okBoundsB (b : Block) : Bool :=
  match b.lower, b.upper with
  | some l, some u => decide (l < u)
  | _, _ => true

/-! ## `ThetaParameters.set_parameters` and `ThetaParameters.theta_from_params`

The `params` attribute is a Python dict `name → array`; it is modelled as a
function `String → Option (ℕ → ℚ)` (with `none` for absent keys).  The
length assertion `assert len(theta) == self.ndim` of `set_parameters` has no
counterpart on function-arrays; round-trip statements are restricted to
indices `i < ndim` accordingly. -/

/-- The empty `params` dict (`self.params = {}`). -/
def emptyParams : String → Option (ℕ → ℚ) := fun _ => none

/-- Dict assignment `params[k] = v`. -/
def updParams (ps : String → Option (ℕ → ℚ)) (k : String) (v : ℕ → ℚ) :
    String → Option (ℕ → ℚ) :=
  fun q => if q = k then some v else ps q

/-- `ThetaParameters.set_parameters`: for each descriptor entry,
`params[p] = np.array(theta[i0:i0+N])` (a materialised copy of the slice). -/
def set_parameters (desc : List Block) (theta : ℕ → ℚ) :
    String → Option (ℕ → ℚ) :=
  desc.foldl (fun ps b => updParams ps b.name (subvecF theta b)) emptyParams

/-- `ThetaParameters.theta_from_params`: start from `np.zeros(ndim)` and
write `params[p]` into each block's slice; reading a missing key raises
`KeyError`, modelled by `none`. -/
def theta_from_params (desc : List Block) (ps : String → Option (ℕ → ℚ)) :
    Option (ℕ → ℚ) :=
  desc.foldl
    (fun acc b => acc.bind fun th =>
      (ps b.name).map fun v => writeSliceF th b.i0 v b.N)
    (some fun _ => 0)

/-! ## `ThetaParameters.prior_product` -/

/-- `ThetaParameters.prior_product`: `lnp_prior = 0`, then for each block
`lnp_prior += np.sum(prior_function(theta[i0:i0+N], **prior_args))`. -/
def prior_product (desc : List Block) (theta : ℕ → ℚ) : FVal :=
  desc.foldl
    (fun acc b => acc.add (npSum (b.prior_function (subvecF theta b) b.prior_args)))
    (FVal.fin 0)

/-! ## `ThetaParameters.lnp_prior_grad`

The source reads `v['prior_gradient_function']` unconditionally for every
block; a block without that key raises `KeyError` (`none` here). -/

/-- `ThetaParameters.lnp_prior_grad`: start from `np.zeros_like(theta)` and
write each block's gradient into its slice; a block lacking
`prior_gradient_function` raises `KeyError`. -/
def lnp_prior_grad (desc : List Block) (theta : ℕ → ℚ) : Option (ℕ → ℚ) :=
  desc.foldl
    (fun acc b => acc.bind fun g =>
      b.prior_gradient_function.map fun gf =>
        writeSliceF g b.i0 (gf (subvecF theta b) b.prior_args) b.N)
    (some fun _ => 0)

/-! ## `ThetaParameters.check_constrained`

One `while` iteration scans all blocks; for a block with an `upper` key the
components of its slice strictly above the bound are reflected
(`theta ← 2*upper - theta`) with a sign flip, then likewise for `lower` on
the already-updated values.  The loop repeats while any component fired.
The per-component upper-then-lower update is `stepComp`; since the bound is
a scalar per block, the numpy mask updates act componentwise. -/

/-- Upper-bound phase for one component: fire iff `x > upper`. -/
def stepUpper (b : Block) (x s : ℚ) : ℚ × ℚ × Bool :=
  match b.upper with
  | some u => if u < x then (2 * u - x, -s, true) else (x, s, false)
  | none => (x, s, false)

/-- Lower-bound phase for one component: fire iff `x < lower`. -/
def stepLower (b : Block) (x s : ℚ) : ℚ × ℚ × Bool :=
  match b.lower with
  | some l => if x < l then (2 * l - x, -s, true) else (x, s, false)
  | none => (x, s, false)

/-- One scan's effect on one component of a block: upper phase, then lower
phase on the updated value; the two Booleans record which phases fired. -/
def stepComp (b : Block) (x s : ℚ) : ℚ × ℚ × Bool × Bool :=
  match stepUpper b x s with
  | (x1, s1, f1) =>
    match stepLower b x1 s1 with
    | (x2, s2, f2) => (x2, s2, f1, f2)

/-- `np.any` over the block's slice. -/
def anyOwned (b : Block) (p : ℕ → Bool) : Bool :=
  (List.range b.N).any fun k => p (b.i0 + k)

/-- One scan's effect of a single block on the whole theta/sign pair, plus
the `np.any(above) or np.any(below)` out-of-bounds flag for this block. -/
def applyBlock (b : Block) (theta sign : ℕ → ℚ) :
    (ℕ → ℚ) × (ℕ → ℚ) × Bool :=
  (fun i => if owns b i then (stepComp b (theta i) (sign i)).1 else theta i,
   fun i => if owns b i then (stepComp b (theta i) (sign i)).2.1 else sign i,
   anyOwned b fun i =>
     (stepComp b (theta i) (sign i)).2.2.1 || (stepComp b (theta i) (sign i)).2.2.2)

/-- One full `while`-body scan over all blocks, threading theta, sign and
the accumulated `oob` flag. -/
def scanDesc (desc : List Block) (theta sign : ℕ → ℚ) (oob : Bool) :
    (ℕ → ℚ) × (ℕ → ℚ) × Bool :=
  desc.foldl
    (fun acc b =>
      match applyBlock b acc.1 acc.2.1 with
      | (t, s, f) => (t, s, acc.2.2 || f))
    (theta, sign, oob)

/-- The `while oob:` loop with explicit fuel: each iteration resets `oob`
to `False`, scans, and repeats while the scan fired; on exit the function
returns `theta, sign, oob` (the flag of the final, clean scan). -/
def ccAux (desc : List Block) : ℕ → (ℕ → ℚ) → (ℕ → ℚ) →
    Option ((ℕ → ℚ) × (ℕ → ℚ) × Bool)
  | 0, _, _ => none
  | fuel + 1, theta, sign =>
    match scanDesc desc theta sign false with
    | (t, s, f) => if f then ccAux desc fuel t s else some (t, s, f)

/-- `ThetaParameters.check_constrained`: `sign = np.ones_like(theta)`,
then the reflection loop. -/
def check_constrained (desc : List Block) (fuel : ℕ) (theta : ℕ → ℚ) :
    Option ((ℕ → ℚ) × (ℕ → ℚ) × Bool) :=
  ccAux desc fuel theta (fun _ => 1)

/-- The component is within its block's reflection bounds (bounds that are
absent impose no constraint). -/
def inBounds (b : Block) (x : ℚ) : Prop :=
  (∀ u, b.upper = some u → x ≤ u) ∧ (∀ l, b.lower = some l → l ≤ x)

instance (b : Block) (x : ℚ) : Decidable (inBounds b x) := by
  unfold inBounds
  exact instDecidableAnd

/-! ## `ThetaParameters.bounds` -/

/-- `ThetaParameters.bounds`: start from `ndim * [(0., 0.)]`; for each
block read `prior_args['mini']` and `prior_args['maxi']` (`KeyError` if
absent).  If `np.size(mini) == 1` only the single entry at `i0` is set;
otherwise entry `i0 + k` is set for each `k < np.size(mini)`. -/
def boundsD (desc : List Block) : Option (ℕ → ℚ × ℚ) :=
  desc.foldl
    (fun acc b => acc.bind fun bd =>
      (lookupPA b.prior_args "mini").bind fun mini =>
      (lookupPA b.prior_args "maxi").map fun maxi =>
        if mini.length = 1 then
          fun i => if i = b.i0 then (mini.getD 0 0, maxi.getD 0 0) else bd i
        else
          (List.range mini.length).foldl
            (fun bd2 k =>
              fun i => if i = b.i0 + k then (mini.getD k 0, maxi.getD k 0) else bd2 i)
            bd)
    (some fun _ => ((0 : ℚ), (0 : ℚ)))

/-! ## Per-component trajectory of the reflection loop (ghost instrumentation)

A component's evolution depends only on its own value, its sign and its
owning block (bounds are scalars per block), so the loop acts on each owned
component as an iterate of `stepComp`.  `compStepC` additionally counts the
reflections applied to the component; it is defined through `stepComp`
itself, so it cannot drift from the embedded code. -/

/-- One scan's action on a single component: value and sign parts of
`stepComp`. -/
def compStep (b : Block) (p : ℚ × ℚ) : ℚ × ℚ :=
  ((stepComp b p.1 p.2).1, (stepComp b p.1 p.2).2.1)

/-- `1` if the phase fired, else `0`. -/
def bitN (f : Bool) : ℕ := bif f then 1 else 0

/-- One scan's action on a single component, also counting how many
reflections (fired phases) were applied to it. -/
def compStepC (b : Block) (p : ℚ × ℚ × ℕ) : ℚ × ℚ × ℕ :=
  match stepComp b p.1 p.2.1 with
  | (x, s, fU, fL) => (x, s, p.2.2 + bitN fU + bitN fL)

/-! ## `SedModel.lnprob`

The model-generation collaborator (`self.model`, i.e. `mean_model` /
`sps.get_spectrum`) is out of the core's scope and is an opaque function
field; the Boolean in `lnprob`'s result records whether that collaborator
was invoked during the call (ghost instrumentation for the short-circuit
property).  `log` and `pi` (used in the jitter normalisation terms) are not
even imported by the source module; they are modelled as opaque fields, and
the power `10**x` of the magnitude-to-maggies conversion likewise. -/

/-- Restrict to masked entries: `arr[mask]`. -/
def maskedQ (mask : List Bool) (l : List ℚ) : List ℚ :=
  ((l.zip mask).filter fun p => p.2).map fun p => p.1

/-- The `SedModel` state that `lnprob` reads: the descriptor, the
observation bundle, the opaque model collaborator, the jitter parameters
(read from `self.params` at call time) and opaque transcendental
primitives. -/
structure SedModelE where
  theta_desc : List Block
  obs_spectrum : Option (List ℚ)
  obs_unc : List ℚ
  obs_mask : List Bool
  obs_mags : List ℚ
  obs_mags_unc : List ℚ
  obs_filters : Option Unit
  model : (ℕ → ℚ) → List ℚ × List ℚ
  jitter : ℚ
  phot_jitter : ℚ
  logQ : ℚ → ℚ
  piQ : ℚ
  pow10 : ℚ → ℚ

/-- Spectroscopic log-likelihood term of `lnprob` (the
`if self.obs['spectrum'] is not None` branch): Gaussian chi-square over the
masked pixels, plus the jitter normalisation term when `jitter != 0`. -/
def lnpSpec (M : SedModelE) (spec : List ℚ) (ospec : List ℚ) : ℚ :=
  let residual := List.zipWith (fun o s => o - s) ospec spec
  let total_var := List.zipWith (fun u o => u ^ 2 + (M.jitter * o) ^ 2) M.obs_unc ospec
  let base := -(1 / 2 : ℚ) *
    (maskedQ M.obs_mask (List.zipWith (fun r v => r ^ 2 / v) residual total_var)).sum
  if M.jitter ≠ 0 then
    base + ((maskedQ M.obs_mask total_var).map fun v => M.logQ (2 * M.piQ * v)).sum
  else base

/-- Photometric log-likelihood term of `lnprob` (the
`if self.obs['filters'] is not None` branch). -/
def lnpPhot (M : SedModelE) (phot : List ℚ) : ℚ :=
  let maggies := M.obs_mags.map fun m => M.pow10 (-(2 / 5 : ℚ) * m)
  let phot_var := List.zipWith
    (fun mg mu => mg ^ 2 * ((mu / (543 / 500 : ℚ)) ^ 2 + M.phot_jitter ^ 2))
    maggies M.obs_mags_unc
  let base := -(1 / 2 : ℚ) *
    (List.zipWith (fun d v => d ^ 2 / v)
      (List.zipWith (fun p mg => p - mg) phot maggies) phot_var).sum
  if M.phot_jitter ≠ 0 then
    base + (phot_var.map fun v => M.logQ (2 * M.piQ * v)).sum
  else base

/-- `SedModel.lnprob`: evaluate the prior; if it is finite, invoke the
model collaborator and add the spectroscopic and photometric terms
(absent channels contribute `0`); otherwise return `-np.infty` without
invoking the collaborator.  The Boolean records whether the collaborator
was invoked. -/
def lnprob (M : SedModelE) (theta : ℕ → ℚ) : FVal × Bool :=
  let lnp_prior := prior_product M.theta_desc theta
  if lnp_prior.isFinite then
    let sp := M.model theta
    let lnp_spec : ℚ :=
      match M.obs_spectrum with
      | some ospec => lnpSpec M sp.1 ospec
      | none => 0
    let lnp_phot : ℚ :=
      match M.obs_filters with
      | some _ => lnpPhot M sp.2
      | none => 0
    (FVal.add (FVal.add (FVal.fin lnp_spec) (FVal.fin lnp_phot)) lnp_prior, true)
  else
    (FVal.ninf, false)

/-! ## Store-level model of `check_constrained` (aliasing and in-place
mutation)

Numpy slice views write through to the underlying array: the statement
`theta[start:end][above] = 2*upper - theta[start:end][above]` mutates the
caller's `theta` array in place, and `return theta, sign, oob` returns that
same array object.  To express this frame property, a second, store-passing
embedding keeps the caller-visible array buffers in an explicit store of
numbered buffers; `check_constrained` takes the *reference* of the theta
buffer and each masked slice assignment rewrites the buffer in the store.
The `sign` array is freshly allocated inside the call (`np.ones_like`), so
it is threaded by value. -/

/-- A store of array buffers, addressed by number. -/
def Store : Type := List (List ℚ)

/-- Read the buffer at reference `r`. -/
def readArr (st : Store) (r : ℕ) : List ℚ := st.getD r []

/-- Overwrite the buffer at reference `r`. -/
def writeArr (st : Store) (r : ℕ) (v : List ℚ) : Store := st.set r v

/-- The masked slice assignment of the upper-bound phase, applied to the
contents of a buffer: components of the slice strictly above `u` are
reflected. -/
def reflectUpperList (u : ℚ) (start len : ℕ) (tl : List ℚ) : List ℚ :=
  tl.mapIdx fun i x =>
    if start ≤ i ∧ i < start + len ∧ u < x then 2 * u - x else x

/-- The masked slice assignment of the lower-bound phase. -/
def reflectLowerList (l : ℚ) (start len : ℕ) (tl : List ℚ) : List ℚ :=
  tl.mapIdx fun i x =>
    if start ≤ i ∧ i < start + len ∧ x < l then 2 * l - x else x

/-- Sign flip on the masked components for the upper phase. -/
def flipSignUpper (u : ℚ) (start len : ℕ) (tl sl : List ℚ) : List ℚ :=
  (List.zip sl tl).mapIdx fun i p =>
    if start ≤ i ∧ i < start + len ∧ u < p.2 then -p.1 else p.1

/-- Sign flip on the masked components for the lower phase. -/
def flipSignLower (l : ℚ) (start len : ℕ) (tl sl : List ℚ) : List ℚ :=
  (List.zip sl tl).mapIdx fun i p =>
    if start ≤ i ∧ i < start + len ∧ p.2 < l then -p.1 else p.1

/-- `np.any(above)` over a buffer's slice. -/
def anyAboveList (u : ℚ) (start len : ℕ) (tl : List ℚ) : Bool :=
  (List.range tl.length).any fun i =>
    decide (start ≤ i) && decide (i < start + len) && decide (u < tl.getD i 0)

/-- `np.any(below)` over a buffer's slice. -/
def anyBelowList (l : ℚ) (start len : ℕ) (tl : List ℚ) : Bool :=
  (List.range tl.length).any fun i =>
    decide (start ≤ i) && decide (i < start + len) && decide (tl.getD i 0 < l)

/-- One block's part of one scan, in the store model: the upper phase (if
the block has an `upper` key) mutates the theta buffer and flips signs,
then the lower phase does likewise on the updated buffer. -/
def scanStoreBlock (b : Block) (acc : Store × List ℚ × Bool) (tRef : ℕ) :
    Store × List ℚ × Bool :=
  let st := acc.1
  let sl := acc.2.1
  let oob := acc.2.2
  let afterU : Store × List ℚ × Bool :=
    match b.upper with
    | some u =>
      let tl := readArr st tRef
      (writeArr st tRef (reflectUpperList u b.i0 b.N tl),
       flipSignUpper u b.i0 b.N tl sl,
       oob || anyAboveList u b.i0 b.N tl)
    | none => (st, sl, oob)
  match b.lower with
  | some l =>
    let tl := readArr afterU.1 tRef
    (writeArr afterU.1 tRef (reflectLowerList l b.i0 b.N tl),
     flipSignLower l b.i0 b.N tl afterU.2.1,
     afterU.2.2 || anyBelowList l b.i0 b.N tl)
  | none => afterU

/-- One full scan over all blocks, in the store model. -/
def scanStore (desc : List Block) (st : Store) (tRef : ℕ) (sl : List ℚ)
    (oob : Bool) : Store × List ℚ × Bool :=
  desc.foldl (fun acc b => scanStoreBlock b acc tRef) (st, sl, oob)

/-- The reflection `while` loop in the store model; the result carries the
final store, the *returned theta reference* (the same object the caller
passed in), the sign array and the exit flag. -/
def ccStoreAux (desc : List Block) : ℕ → Store → ℕ → List ℚ →
    Option (Store × ℕ × List ℚ × Bool)
  | 0, _, _, _ => none
  | fuel + 1, st, tRef, sl =>
    match scanStore desc st tRef sl false with
    | (st1, sl1, f) =>
      if f then ccStoreAux desc fuel st1 tRef sl1
      else some (st1, tRef, sl1, f)

/-- `check_constrained` in the store model:
`sign = np.ones_like(theta)`, then the loop; `return theta, sign, oob`
returns the reference of the caller's (mutated) theta buffer. -/
def check_constrained_store (desc : List Block) (fuel : ℕ) (st : Store)
    (tRef : ℕ) : Option (Store × ℕ × List ℚ × Bool) :=
  ccStoreAux desc fuel st tRef (List.replicate (readArr st tRef).length 1)

/-! ## Auxiliary pure view of `theta_from_params`, and concrete descriptors
used by witnesses and counterexamples -/

/-- The pure fold underlying `theta_from_params` once every key lookup is
known to succeed (missing keys read as the zero vector, a case excluded by
the success hypothesis wherever this is used). -/
def tfpPure (desc : List Block) (ps : String → Option (ℕ → ℚ)) : ℕ → ℚ :=
  desc.foldl
    (fun th b => writeSliceF th b.i0 ((ps b.name).getD fun _ => 0) b.N)
    (fun _ => 0)

/-- A single scalar block with reflection bounds `[0, 1]` and no gradient
function. -/
def blk01 : Block :=
  { name := "a", i0 := 0, N := 1, prior_function := fun _ _ => [],
    prior_gradient_function := none, prior_args := [], lower := some 0,
    upper := some 1 }

/-- A single scalar block with the degenerate reflection interval
`lower = upper = 0`. -/
def blkDeg : Block :=
  { name := "a", i0 := 0, N := 1, prior_function := fun _ _ => [],
    prior_gradient_function := none, prior_args := [], lower := some 0,
    upper := some 0 }

/-- Block `"a"`: slice `[0, 1)`, with a prior-gradient function returning
the constant `5`. -/
def blkGa : Block :=
  { name := "a", i0 := 0, N := 1, prior_function := fun _ _ => [FVal.fin 0],
    prior_gradient_function := some fun _ _ => fun _ => 5,
    prior_args := [("mini", [0]), ("maxi", [1])], lower := none, upper := none }

/-- Block `"b"`: slice `[1, 2)`, with a prior-gradient function returning
the constant `7`. -/
def blkGb : Block :=
  { name := "b", i0 := 1, N := 1, prior_function := fun _ _ => [FVal.fin 0],
    prior_gradient_function := some fun _ _ => fun _ => 7,
    prior_args := [("mini", [2]), ("maxi", [3])], lower := none, upper := none }

/-- Block `"c"`: slice `[0, 2)` (two components), scalar bound arguments
`mini = 1`, `maxi = 2`, no gradient function. -/
def blkSB : Block :=
  { name := "c", i0 := 0, N := 2, prior_function := fun _ _ => [],
    prior_gradient_function := none,
    prior_args := [("mini", [1]), ("maxi", [2])], lower := none, upper := none }

/-- A block whose prior function always returns the single log-density
`-inf` (a proposal outside the prior's support). -/
def blkNinf : Block :=
  { name := "a", i0 := 0, N := 1, prior_function := fun _ _ => [FVal.ninf],
    prior_gradient_function := none, prior_args := [], lower := none,
    upper := none }

/-- A concrete `SedModel` state whose prior rejects every theta vector. -/
def modelNinf : SedModelE :=
  { theta_desc := [blkNinf], obs_spectrum := some [1], obs_unc := [1],
    obs_mask := [true], obs_mags := [1], obs_mags_unc := [1],
    obs_filters := some (), model := fun _ => ([1], [1]), jitter := 0,
    phot_jitter := 0, logQ := fun _ => 0, piQ := 3, pow10 := fun _ => 1 }

/-- The pure fold underlying `lnp_prior_grad` once every block is known to
define `prior_gradient_function` (missing functions read as the zero
gradient, a case excluded by the hypothesis wherever this is used). -/
def lpgPure (desc : List Block) (theta : ℕ → ℚ) : ℕ → ℚ :=
  desc.foldl
    (fun g b => writeSliceF g b.i0
      ((b.prior_gradient_function.getD fun _ _ => fun _ => 0)
        (subvecF theta b) b.prior_args) b.N)
    (fun _ => 0)

/-- The pure fold underlying `bounds` once every block is known to define
`prior_args['mini']` and `prior_args['maxi']` (missing entries read as `[]`,
a case excluded by the hypothesis wherever this is used). -/
def boundsPure (desc : List Block) : ℕ → ℚ × ℚ :=
  desc.foldl
    (fun bd b =>
      if ((lookupPA b.prior_args "mini").getD []).length = 1 then
        fun i => if i = b.i0 then
          (((lookupPA b.prior_args "mini").getD []).getD 0 0,
           ((lookupPA b.prior_args "maxi").getD []).getD 0 0)
        else bd i
      else
        (List.range ((lookupPA b.prior_args "mini").getD []).length).foldl
          (fun bd2 k =>
            fun i => if i = b.i0 + k then
              (((lookupPA b.prior_args "mini").getD []).getD k 0,
               ((lookupPA b.prior_args "maxi").getD []).getD k 0)
            else bd2 i)
          bd)
    (fun _ => ((0 : ℚ), (0 : ℚ)))

/-! # Theorems -/

/-! ## Arithmetic of the `FVal` value domain -/

theorem FVal.add_assoc (a b c : FVal) : (a.add b).add c = a.add (b.add c) := by
  cases a <;> cases b <;> cases c <;> simp [FVal.add, Rat.add_assoc]

theorem FVal.zero_add (a : FVal) : (FVal.fin 0).add a = a := by
  cases a <;> simp [FVal.add]

theorem FVal.add_zero (a : FVal) : a.add (FVal.fin 0) = a := by
  cases a <;> simp [FVal.add]

theorem npSum_cons (x : FVal) (l : List FVal) :
    npSum (x :: l) = x.add (npSum l) := by
  have h : ∀ (l : List FVal) (a : FVal),
      l.foldl FVal.add a = a.add (npSum l) := by
    intro l
    induction l with
    | nil => intro a; simpa [npSum] using (FVal.add_zero a).symm
    | cons y t ih =>
      intro a
      have h1 : npSum (y :: t) = ((FVal.fin 0).add y).add (npSum t) := by
        simpa [npSum, List.foldl_cons] using ih ((FVal.fin 0).add y)
      simp only [List.foldl_cons]
      rw [ih (a.add y), h1, FVal.zero_add, FVal.add_assoc]
  simpa [npSum, List.foldl_cons, FVal.zero_add] using h l ((FVal.fin 0).add x)

theorem npSum_append (l1 l2 : List FVal) :
    npSum (l1 ++ l2) = (npSum l1).add (npSum l2) := by
  induction l1 with
  | nil => simp [npSum, FVal.zero_add]
  | cons x t ih =>
    simp only [List.cons_append, npSum_cons, ih, FVal.add_assoc]

theorem npSum_flatten (L : List (List FVal)) :
    npSum L.flatten = npSum (L.map npSum) := by
  induction L with
  | nil => rfl
  | cons l t ih => simp [List.flatten, npSum_append, npSum_cons, ih]

theorem foldl_fvadd {β : Type} (g : β → FVal) (l : List β) (a : FVal) :
    l.foldl (fun acc b => acc.add (g b)) a = a.add (npSum (l.map g)) := by
  induction l generalizing a with
  | nil => simp [npSum, FVal.add_zero]
  | cons x t ih => simp [List.foldl_cons, ih, npSum_cons, FVal.add_assoc]

/-- C2: `prior_product` equals the sum, over all blocks and over all
components within each block, of the per-component log-densities returned
by each block's `prior_function` applied to that block's sub-vector with
its `prior_args`; the engine applies no clipping or other transformation of
its own. -/
theorem c2_prior_product_is_sum (desc : List Block) (theta : ℕ → ℚ) :
    prior_product desc theta =
      npSum (List.flatten (desc.map fun b =>
        b.prior_function (subvecF theta b) b.prior_args)) := by
  unfold prior_product
  rw [foldl_fvadd (fun b => npSum (b.prior_function (subvecF theta b) b.prior_args))
    desc (FVal.fin 0), FVal.zero_add, npSum_flatten, List.map_map]
  rfl

/-! ## Generic lemmas about folds of slice-writing updates -/

theorem foldl_upd_frame {α : Type} (upd : (ℕ → α) → Block → ℕ → α)
    (W : Block → ℕ → Prop)
    (Hf : ∀ g b i, ¬ W b i → upd g b i = g i)
    (desc : List Block) (g0 : ℕ → α) (i : ℕ)
    (h : ∀ b ∈ desc, ¬ W b i) :
    desc.foldl upd g0 i = g0 i := by
  induction desc generalizing g0 with
  | nil => rfl
  | cons hd t ih =>
    have h1 := ih (upd g0 hd) fun b hb => h b (List.mem_cons_of_mem hd hb)
    rw [List.foldl_cons, h1, Hf g0 hd i (h hd (List.mem_cons_self hd t))]

theorem foldl_upd_write {α : Type} (upd : (ℕ → α) → Block → ℕ → α)
    (W : Block → ℕ → Prop) (V : Block → ℕ → α)
    (Hf : ∀ g b i, ¬ W b i → upd g b i = g i)
    (Hw : ∀ g b i, W b i → upd g b i = V b i)
    (desc : List Block) :
    List.Pairwise (fun a b => ∀ j, W a j → W b j → False) desc →
      ∀ (g0 : ℕ → α) (b : Block), b ∈ desc → ∀ i : ℕ, W b i →
        desc.foldl upd g0 i = V b i := by
  induction desc with
  | nil => intro _ g0 b hb; cases hb
  | cons hd t ih =>
    intro hdisj g0 b hb i hi
    rcases List.pairwise_cons.mp hdisj with ⟨hhd, ht⟩
    rcases List.mem_cons.mp hb with rfl | hbt
    · have hframe : ∀ b' ∈ t, ¬ W b' i := fun b' hb' hw' => hhd b' hb' i hi hw'
      rw [List.foldl_cons, foldl_upd_frame upd W Hf t (upd g0 b) i hframe,
        Hw g0 b i hi]
    · rw [List.foldl_cons]
      exact ih ht (upd g0 hd) b hbt i hi

/-! ## Bridges from the Boolean well-formedness tests -/

theorem pairwiseB_pairwise {α : Type} (f : α → α → Bool) :
    ∀ l : List α, pairwiseB f l = true →
      List.Pairwise (fun a b => f a b = true) l
  | [], _ => List.Pairwise.nil
  | a :: t, h => by
    rcases Bool.and_eq_true_iff.mp h with ⟨h1, h2⟩
    exact List.pairwise_cons.mpr
      ⟨fun b hb => List.all_eq_true.mp h1 b hb, pairwiseB_pairwise f t h2⟩

theorem blockDisjB_not_both {a b : Block} (h : blockDisjB a b = true) (i : ℕ) :
    owns a i → owns b i → False := by
  intro ha hb
  rcases Bool.or_eq_true_iff.mp h with h1 | h1 <;>
    [skip; skip] <;> rcases ha with ⟨ha1, ha2⟩ <;> rcases hb with ⟨hb1, hb2⟩ <;>
    [exact absurd (of_decide_eq_true h1) (by omega);
      exact absurd (of_decide_eq_true h1) (by omega)]

theorem disjointDescB_pairwise_owns (desc : List Block)
    (h : disjointDescB desc = true) :
    List.Pairwise (fun a b => ∀ j, owns a j → owns b j → False) desc :=
  (pairwiseB_pairwise blockDisjB desc h).imp fun hab j => blockDisjB_not_both hab j

theorem coversB_spec (desc : List Block) (h : coversB desc = true) (i : ℕ)
    (hi : i < ndimD desc) : ∃ b ∈ desc, owns b i := by
  have h1 := List.all_eq_true.mp h i (List.mem_range.mpr hi)
  rcases List.any_eq_true.mp h1 with ⟨b, hb, hw⟩
  exact ⟨b, hb, of_decide_eq_true hw⟩

/-! ## `params` dict lookups after `set_parameters` -/

theorem set_parameters_fold_frame (theta : ℕ → ℚ) :
    ∀ (desc : List Block) (ps0 : String → Option (ℕ → ℚ)) (q : String),
      (∀ b ∈ desc, b.name ≠ q) →
      desc.foldl (fun ps b => updParams ps b.name (subvecF theta b)) ps0 q = ps0 q
  | [], _, _, _ => rfl
  | hd :: t, ps0, q, h => by
    rw [List.foldl_cons,
      set_parameters_fold_frame theta t _ q
        (fun b hb => h b (List.mem_cons_of_mem hd hb))]
    exact if_neg fun e => h hd (List.mem_cons_self hd t) e.symm

theorem set_parameters_fold_lookup (theta : ℕ → ℚ) :
    ∀ (desc : List Block), nodupNamesB desc = true →
      ∀ (ps0 : String → Option (ℕ → ℚ)) (b : Block), b ∈ desc →
        desc.foldl (fun ps c => updParams ps c.name (subvecF theta c)) ps0 b.name
          = some (subvecF theta b)
  | [], _, _, _, hb => absurd hb (List.not_mem_nil _)
  | hd :: t, h, ps0, b, hb => by
    rcases Bool.and_eq_true_iff.mp h with ⟨h1, h2⟩
    rw [List.foldl_cons]
    rcases List.mem_cons.mp hb with rfl | hbt
    · have hne : ∀ c ∈ t, c.name ≠ b.name := fun c hc e => by
        have := List.all_eq_true.mp h1 c hc
        rw [e] at this
        simp at this
      rw [set_parameters_fold_frame theta t _ b.name hne]
      exact if_pos rfl
    · exact set_parameters_fold_lookup theta t h2 _ b hbt

theorem set_parameters_lookup (desc : List Block) (theta : ℕ → ℚ)
    (hnames : nodupNamesB desc = true) (b : Block) (hb : b ∈ desc) :
    set_parameters desc theta b.name = some (subvecF theta b) :=
  set_parameters_fold_lookup theta desc hnames emptyParams b hb

/-! ## `theta_from_params` with all keys present -/

theorem tfp_fold_some (ps : String → Option (ℕ → ℚ)) :
    ∀ (desc : List Block) (acc : ℕ → ℚ),
      (∀ b ∈ desc, (ps b.name).isSome) →
      desc.foldl
          (fun a b => a.bind fun th =>
            (ps b.name).map fun v => writeSliceF th b.i0 v b.N)
          (some acc)
        = some (desc.foldl
            (fun th b => writeSliceF th b.i0 ((ps b.name).getD fun _ => 0) b.N)
            acc)
  | [], _, _ => rfl
  | hd :: t, acc, h => by
    obtain ⟨v, hv⟩ := Option.isSome_iff_exists.mp (h hd (List.mem_cons_self hd t))
    rw [List.foldl_cons, List.foldl_cons, Option.some_bind, hv, Option.map_some',
      tfp_fold_some ps t _ (fun b hb => h b (List.mem_cons_of_mem hd hb)),
      Option.getD_some]

theorem theta_from_params_some (desc : List Block)
    (ps : String → Option (ℕ → ℚ)) (h : ∀ b ∈ desc, (ps b.name).isSome) :
    theta_from_params desc ps = some (tfpPure desc ps) :=
  tfp_fold_some ps desc (fun _ => 0) h

theorem tfpPure_owned (desc : List Block) (ps : String → Option (ℕ → ℚ))
    (hdisj : List.Pairwise (fun a b => ∀ j, owns a j → owns b j → False) desc)
    (b : Block) (hb : b ∈ desc) (i : ℕ) (hi : owns b i) :
    tfpPure desc ps i = ((ps b.name).getD fun _ => 0) (i - b.i0) :=
  foldl_upd_write
    (fun th b => writeSliceF th b.i0 ((ps b.name).getD fun _ => 0) b.N)
    owns (fun b i => ((ps b.name).getD fun _ => 0) (i - b.i0))
    (fun _ _ _ h => if_neg h) (fun _ _ _ h => if_pos h)
    desc hdisj (fun _ => 0) b hb i hi

/-- C1: round-trip law — for a descriptor whose block slices partition
`[0, ndim)` (and whose dict keys are, as Python guarantees, distinct),
`theta_from_params` applied to the `params` produced by
`set_parameters theta` succeeds and returns `theta` component-wise on every
flat-vector index below `ndim`. -/
theorem c1_round_trip (desc : List Block) (theta : ℕ → ℚ)
    (hcov : coversB desc = true) (hdisj : disjointDescB desc = true)
    (hnames : nodupNamesB desc = true) :
    ∃ tf, theta_from_params desc (set_parameters desc theta) = some tf ∧
      ∀ i, i < ndimD desc → tf i = theta i := by
  have hlook : ∀ b ∈ desc,
      set_parameters desc theta b.name = some (subvecF theta b) :=
    fun b hb => set_parameters_lookup desc theta hnames b hb
  have hsome : ∀ b ∈ desc, ((set_parameters desc theta) b.name).isSome :=
    fun b hb => by rw [hlook b hb]; rfl
  refine ⟨tfpPure desc (set_parameters desc theta),
    theta_from_params_some desc _ hsome, ?_⟩
  intro i hi
  obtain ⟨b, hb, hib⟩ := coversB_spec desc hcov i hi
  rw [tfpPure_owned desc _ (disjointDescB_pairwise_owns desc hdisj) b hb i hib,
    hlook b hb]
  show subvecF theta b (i - b.i0) = theta i
  unfold subvecF
  rw [Nat.add_sub_cancel' hib.1]

/-- C1 witness: a concrete two-block descriptor partitioning `[0, 2)` and a
concrete flat vector, on which the round-trip hypotheses hold and hence the
round-trip equality is delivered by `c1_round_trip`. -/
theorem c1_round_trip_witness :
    coversB [blkGa, blkGb] = true ∧ disjointDescB [blkGa, blkGb] = true ∧
      nodupNamesB [blkGa, blkGb] = true ∧
      ∃ tf, theta_from_params [blkGa, blkGb]
          (set_parameters [blkGa, blkGb] fun i => (i : ℚ) + 3) = some tf ∧
        ∀ i, i < ndimD [blkGa, blkGb] → tf i = (i : ℚ) + 3 :=
  ⟨by decide, by decide, by decide,
    c1_round_trip [blkGa, blkGb] (fun i => (i : ℚ) + 3)
      (by decide) (by decide) (by decide)⟩

/-! ## C3: gradient zero-fill -/

/-- C3 counterexample: for a concrete descriptor whose single block lacks
`prior_gradient_function`, `lnp_prior_grad` raises `KeyError` (returns
`none`): the call does not succeed, contrary to the claimed zero-fill. -/
theorem c3_zero_fill_counterexample :
    lnp_prior_grad [blk01] (fun _ => 1) = none := rfl

theorem lpg_fold_some (theta : ℕ → ℚ) :
    ∀ (desc : List Block) (acc : ℕ → ℚ),
      (∀ b ∈ desc, (b.prior_gradient_function).isSome) →
      desc.foldl
          (fun a b => a.bind fun g =>
            b.prior_gradient_function.map fun gf =>
              writeSliceF g b.i0 (gf (subvecF theta b) b.prior_args) b.N)
          (some acc)
        = some (desc.foldl
            (fun g b => writeSliceF g b.i0
              ((b.prior_gradient_function.getD fun _ _ => fun _ => 0)
                (subvecF theta b) b.prior_args) b.N)
            acc)
  | [], _, _ => rfl
  | hd :: t, acc, h => by
    obtain ⟨gf, hgf⟩ :=
      Option.isSome_iff_exists.mp (h hd (List.mem_cons_self hd t))
    rw [List.foldl_cons, List.foldl_cons, Option.some_bind, hgf, Option.map_some',
      lpg_fold_some theta t _ (fun b hb => h b (List.mem_cons_of_mem hd hb)),
      Option.getD_some]

/-- C3 (amended): `lnp_prior_grad` succeeds only when *every* block defines
`prior_gradient_function`; in that case each block's slice of the result
holds that block's gradient values, and flat-vector indices owned by no
block are zero.  A block lacking the gradient function makes the whole call
fail with `KeyError` (it does not contribute zeros). -/
theorem c3_gradient_all_blocks (desc : List Block) (theta : ℕ → ℚ)
    (hdisj : disjointDescB desc = true)
    (hall : ∀ b ∈ desc, (b.prior_gradient_function).isSome) :
    ∃ g, lnp_prior_grad desc theta = some g ∧
      (∀ b ∈ desc, ∀ i, owns b i →
        g i = (b.prior_gradient_function.getD fun _ _ => fun _ => 0)
          (subvecF theta b) b.prior_args (i - b.i0)) ∧
      (∀ i, (∀ b ∈ desc, ¬ owns b i) → g i = 0) := by
  refine ⟨lpgPure desc theta, lpg_fold_some theta desc (fun _ => 0) hall,
    ?_, ?_⟩
  · intro b hb i hi
    exact foldl_upd_write
      (fun g b => writeSliceF g b.i0
        ((b.prior_gradient_function.getD fun _ _ => fun _ => 0)
          (subvecF theta b) b.prior_args) b.N)
      owns
      (fun b i => (b.prior_gradient_function.getD fun _ _ => fun _ => 0)
        (subvecF theta b) b.prior_args (i - b.i0))
      (fun _ _ _ h => if_neg h) (fun _ _ _ h => if_pos h)
      desc (disjointDescB_pairwise_owns desc hdisj) (fun _ => 0) b hb i hi
  · intro i hi
    exact foldl_upd_frame
      (fun g b => writeSliceF g b.i0
        ((b.prior_gradient_function.getD fun _ _ => fun _ => 0)
          (subvecF theta b) b.prior_args) b.N)
      owns (fun _ _ _ h => if_neg h) desc (fun _ => 0) i hi

/-- C3 witness: a concrete two-block descriptor in which both blocks define
gradient functions; the hypotheses hold and `c3_gradient_all_blocks`
delivers the slice characterisation. -/
theorem c3_gradient_all_blocks_witness :
    disjointDescB [blkGa, blkGb] = true ∧
      (∀ b ∈ [blkGa, blkGb], (b.prior_gradient_function).isSome) ∧
      ∃ g, lnp_prior_grad [blkGa, blkGb] (fun _ => 0) = some g ∧
        (∀ b ∈ [blkGa, blkGb], ∀ i, owns b i →
          g i = (b.prior_gradient_function.getD fun _ _ => fun _ => 0)
            (subvecF (fun _ => 0) b) b.prior_args (i - b.i0)) ∧
        (∀ i, (∀ b ∈ [blkGa, blkGb], ¬ owns b i) → g i = 0) :=
  ⟨by decide, by decide,
    c3_gradient_all_blocks [blkGa, blkGb] (fun _ => 0) (by decide) (by decide)⟩

/-! ## C7: posterior short-circuit -/

/-- C7: if the aggregate log-prior of `theta` is not finite, `lnprob`
returns `-inf` and the model-generation collaborator is not invoked (the
Boolean instrumentation of the call is `false`). -/
theorem c7_lnprob_short_circuit (M : SedModelE) (theta : ℕ → ℚ)
    (h : (prior_product M.theta_desc theta).isFinite = false) :
    lnprob M theta = (FVal.ninf, false) := by
  unfold lnprob
  simp only [h]
  rfl

/-- C7 witness: a concrete model state whose prior returns `-inf`; the
short-circuit hypothesis holds and `c7_lnprob_short_circuit` applies. -/
theorem c7_lnprob_short_circuit_witness :
    (prior_product modelNinf.theta_desc fun _ => 0).isFinite = false ∧
      lnprob modelNinf (fun _ => 0) = (FVal.ninf, false) :=
  ⟨by decide, c7_lnprob_short_circuit modelNinf (fun _ => 0) (by decide)⟩

/-! ## Structural lemmas for the reflection scan -/

theorem scanDesc_nil (theta sign : ℕ → ℚ) (o : Bool) :
    scanDesc [] theta sign o = (theta, sign, o) := rfl

theorem scanDesc_cons (b : Block) (t : List Block) (theta sign : ℕ → ℚ)
    (o : Bool) :
    scanDesc (b :: t) theta sign o =
      scanDesc t (applyBlock b theta sign).1 (applyBlock b theta sign).2.1
        (o || (applyBlock b theta sign).2.2) := rfl

theorem ccAux_zero (desc : List Block) (theta sign : ℕ → ℚ) :
    ccAux desc 0 theta sign = none := rfl

theorem ccAux_succ (desc : List Block) (fuel : ℕ) (theta sign : ℕ → ℚ) :
    ccAux desc (fuel + 1) theta sign =
      if (scanDesc desc theta sign false).2.2 then
        ccAux desc fuel (scanDesc desc theta sign false).1
          (scanDesc desc theta sign false).2.1
      else
        some ((scanDesc desc theta sign false).1,
          (scanDesc desc theta sign false).2.1,
          (scanDesc desc theta sign false).2.2) := rfl

theorem stepUpper_none {b : Block} (h : b.upper = none) (x s : ℚ) :
    stepUpper b x s = (x, s, false) := by
  unfold stepUpper; rw [h]

theorem stepUpper_fire {b : Block} {u : ℚ} (h : b.upper = some u) {x : ℚ}
    (hx : u < x) (s : ℚ) : stepUpper b x s = (2 * u - x, -s, true) := by
  unfold stepUpper; rw [h]; exact if_pos hx

theorem stepUpper_skip {b : Block} {u : ℚ} (h : b.upper = some u) {x : ℚ}
    (hx : ¬ u < x) (s : ℚ) : stepUpper b x s = (x, s, false) := by
  unfold stepUpper; rw [h]; exact if_neg hx

theorem stepLower_none {b : Block} (h : b.lower = none) (x s : ℚ) :
    stepLower b x s = (x, s, false) := by
  unfold stepLower; rw [h]

theorem stepLower_fire {b : Block} {l : ℚ} (h : b.lower = some l) {x : ℚ}
    (hx : x < l) (s : ℚ) : stepLower b x s = (2 * l - x, -s, true) := by
  unfold stepLower; rw [h]; exact if_pos hx

theorem stepLower_skip {b : Block} {l : ℚ} (h : b.lower = some l) {x : ℚ}
    (hx : ¬ x < l) (s : ℚ) : stepLower b x s = (x, s, false) := by
  unfold stepLower; rw [h]; exact if_neg hx

theorem stepComp_eq (b : Block) (x s : ℚ) :
    stepComp b x s =
      ((stepLower b (stepUpper b x s).1 (stepUpper b x s).2.1).1,
       (stepLower b (stepUpper b x s).1 (stepUpper b x s).2.1).2.1,
       (stepUpper b x s).2.2,
       (stepLower b (stepUpper b x s).1 (stepUpper b x s).2.1).2.2) := rfl

theorem stepComp_inBounds {b : Block} {x : ℚ} (h : inBounds b x) (s : ℚ) :
    stepComp b x s = (x, s, false, false) := by
  have hu : stepUpper b x s = (x, s, false) := by
    cases hub : b.upper with
    | none => exact stepUpper_none hub x s
    | some u => exact stepUpper_skip hub (not_lt.mpr (h.1 u hub)) s
  have hl : stepLower b x s = (x, s, false) := by
    cases hlb : b.lower with
    | none => exact stepLower_none hlb x s
    | some l => exact stepLower_skip hlb (not_lt.mpr (h.2 l hlb)) s
  rw [stepComp_eq, hu, hl]

theorem okBoundsB_lt {b : Block} (h : okBoundsB b = true) {l u : ℚ}
    (hl : b.lower = some l) (hu : b.upper = some u) : l < u := by
  unfold okBoundsB at h
  rw [hl, hu] at h
  exact of_decide_eq_true h

theorem applyBlock_owned (b : Block) (theta sign : ℕ → ℚ) (i : ℕ)
    (hi : owns b i) :
    (applyBlock b theta sign).1 i = (stepComp b (theta i) (sign i)).1 ∧
      (applyBlock b theta sign).2.1 i = (stepComp b (theta i) (sign i)).2.1 :=
  ⟨if_pos hi, if_pos hi⟩

theorem applyBlock_unowned (b : Block) (theta sign : ℕ → ℚ) (i : ℕ)
    (hi : ¬ owns b i) :
    (applyBlock b theta sign).1 i = theta i ∧
      (applyBlock b theta sign).2.1 i = sign i :=
  ⟨if_neg hi, if_neg hi⟩

theorem scanDesc_unowned :
    ∀ (desc : List Block) (theta sign : ℕ → ℚ) (o : Bool) (i : ℕ),
      (∀ b ∈ desc, ¬ owns b i) →
      (scanDesc desc theta sign o).1 i = theta i ∧
        (scanDesc desc theta sign o).2.1 i = sign i
  | [], _, _, _, _, _ => ⟨rfl, rfl⟩
  | hd :: t, theta, sign, o, i, h => by
    rw [scanDesc_cons]
    have hu := applyBlock_unowned hd theta sign i (h hd (List.mem_cons_self hd t))
    have ht := scanDesc_unowned t (applyBlock hd theta sign).1
      (applyBlock hd theta sign).2.1 (o || (applyBlock hd theta sign).2.2) i
      (fun b hb => h b (List.mem_cons_of_mem hd hb))
    exact ⟨ht.1.trans hu.1, ht.2.trans hu.2⟩

theorem scanDesc_owned :
    ∀ (desc : List Block),
      List.Pairwise (fun a b => ∀ j, owns a j → owns b j → False) desc →
      ∀ (theta sign : ℕ → ℚ) (o : Bool) (b : Block), b ∈ desc →
        ∀ i, owns b i →
        (scanDesc desc theta sign o).1 i = (stepComp b (theta i) (sign i)).1 ∧
          (scanDesc desc theta sign o).2.1 i
            = (stepComp b (theta i) (sign i)).2.1
  | [], _, _, _, _, b, hb, _, _ => absurd hb (List.not_mem_nil b)
  | hd :: t, hdisj, theta, sign, o, b, hb, i, hi => by
    rcases List.pairwise_cons.mp hdisj with ⟨hhd, ht⟩
    rw [scanDesc_cons]
    rcases List.mem_cons.mp hb with rfl | hbt
    · have hu := applyBlock_owned b theta sign i hi
      have hun : ∀ b' ∈ t, ¬ owns b' i := fun b' hb' hw => hhd b' hb' i hi hw
      have hpres := scanDesc_unowned t (applyBlock b theta sign).1
        (applyBlock b theta sign).2.1 (o || (applyBlock b theta sign).2.2) i hun
      exact ⟨hpres.1.trans hu.1, hpres.2.trans hu.2⟩
    · have hnohd : ¬ owns hd i := fun hw => hhd b hbt i hw hi
      have hu := applyBlock_unowned hd theta sign i hnohd
      have hrec := scanDesc_owned t ht (applyBlock hd theta sign).1
        (applyBlock hd theta sign).2.1 (o || (applyBlock hd theta sign).2.2)
        b hbt i hi
      rw [hu.1, hu.2] at hrec
      exact hrec

/-! ## Concrete evaluation helpers (rational arithmetic does not reduce in
the kernel, so concrete runs are evaluated through the step lemmas) -/

theorem anyOwned_one (b : Block) (hN : b.N = 1) (p : ℕ → Bool) :
    anyOwned b p = p b.i0 := by
  unfold anyOwned
  rw [hN, show List.range 1 = [0] from rfl]
  simp

theorem applyBlock_flag (b : Block) (theta sign : ℕ → ℚ) :
    (applyBlock b theta sign).2.2 = anyOwned b fun i =>
      (stepComp b (theta i) (sign i)).2.2.1 ||
        (stepComp b (theta i) (sign i)).2.2.2 := rfl

theorem stepComp_blk01_oob :
    stepComp blk01 (23 / 10) 1 = (3 / 10, 1, true, true) := by
  rw [stepComp_eq, stepUpper_fire (show blk01.upper = some 1 from rfl)
    (by norm_num) 1]
  dsimp only
  rw [stepLower_fire (show blk01.lower = some 0 from rfl) (by norm_num) (-1)]
  simp only [Prod.mk.injEq]
  norm_num

theorem stepComp_blk01_in :
    stepComp blk01 (3 / 10) 1 = (3 / 10, 1, false, false) := by
  refine stepComp_inBounds ⟨?_, ?_⟩ 1
  · intro u hu
    rw [show blk01.upper = some 1 from rfl] at hu
    injection hu with hu
    rw [← hu]
    norm_num
  · intro l hl
    rw [show blk01.lower = some 0 from rfl] at hl
    injection hl with hl
    rw [← hl]
    norm_num

theorem cc_blk01_run :
    ∃ r, check_constrained [blk01] 2 (fun _ => 23 / 10) = some r ∧
      r.1 0 = 3 / 10 ∧ r.2.1 0 = 1 ∧ r.2.2 = false := by
  have hown : owns blk01 0 := by decide
  have hscan1v :
      (scanDesc [blk01] (fun _ => 23 / 10) (fun _ => 1) false).1 0 = 3 / 10 := by
    rw [scanDesc_cons, scanDesc_nil,
      (applyBlock_owned blk01 _ _ 0 hown).1, stepComp_blk01_oob]
  have hscan1s :
      (scanDesc [blk01] (fun _ => 23 / 10) (fun _ => 1) false).2.1 0 = 1 := by
    rw [scanDesc_cons, scanDesc_nil,
      (applyBlock_owned blk01 _ _ 0 hown).2, stepComp_blk01_oob]
  have hscan1f :
      (scanDesc [blk01] (fun _ => 23 / 10) (fun _ => 1) false).2.2 = true := by
    rw [scanDesc_cons, scanDesc_nil, applyBlock_flag, anyOwned_one blk01 rfl]
    dsimp only
    rw [stepComp_blk01_oob]
    rfl
  have hstep2 :
      stepComp blk01
        ((scanDesc [blk01] (fun _ => 23 / 10) (fun _ => 1) false).1 0)
        ((scanDesc [blk01] (fun _ => 23 / 10) (fun _ => 1) false).2.1 0)
        = (3 / 10, 1, false, false) := by
    rw [hscan1v, hscan1s, stepComp_blk01_in]
  have hscan2f :
      (scanDesc [blk01] (scanDesc [blk01] (fun _ => 23 / 10) (fun _ => 1) false).1
        (scanDesc [blk01] (fun _ => 23 / 10) (fun _ => 1) false).2.1 false).2.2
        = false := by
    rw [scanDesc_cons, scanDesc_nil, applyBlock_flag, anyOwned_one blk01 rfl]
    dsimp only
    rw [show blk01.i0 = 0 from rfl, hstep2]
    rfl
  have hscan2v :
      (scanDesc [blk01] (scanDesc [blk01] (fun _ => 23 / 10) (fun _ => 1) false).1
        (scanDesc [blk01] (fun _ => 23 / 10) (fun _ => 1) false).2.1 false).1 0
        = 3 / 10 := by
    rw [scanDesc_cons, scanDesc_nil,
      (applyBlock_owned blk01 _ _ 0 hown).1, hstep2]
  have hscan2s :
      (scanDesc [blk01] (scanDesc [blk01] (fun _ => 23 / 10) (fun _ => 1) false).1
        (scanDesc [blk01] (fun _ => 23 / 10) (fun _ => 1) false).2.1 false).2.1 0
        = 1 := by
    rw [scanDesc_cons, scanDesc_nil,
      (applyBlock_owned blk01 _ _ 0 hown).2, hstep2]
  refine ⟨_, ?_, hscan2v, hscan2s, hscan2f⟩
  show ccAux [blk01] 2 (fun _ => 23 / 10) (fun _ => 1) = _
  rw [ccAux_succ, if_pos hscan1f, ccAux_succ, if_neg (by rw [hscan2f]; simp)]

/-! ## C9: the returned reflection flag -/

theorem ccAux_flag_false (desc : List Block) :
    ∀ (fuel : ℕ) (theta sign : ℕ → ℚ) (r : (ℕ → ℚ) × (ℕ → ℚ) × Bool),
      ccAux desc fuel theta sign = some r → r.2.2 = false
  | 0, _, _, _, h => by cases h
  | fuel + 1, theta, sign, r, h => by
    rw [ccAux_succ] at h
    by_cases hf : (scanDesc desc theta sign false).2.2
    · rw [if_pos hf] at h
      exact ccAux_flag_false desc fuel _ _ r h
    · rw [if_neg hf] at h
      cases h
      simpa using hf

/-- C9 counterexample: on a concrete bounded descriptor (bounds `[0, 1]`)
and input component `2.3`, the call reflects the component twice (the
returned position is `0.3 ≠ 2.3`, and the sign is back to `1`), yet the
returned Boolean is `false` — so the Boolean is not "true iff at least one
reflection occurred during the whole call". -/
theorem c9_flag_counterexample :
    (∃ r, check_constrained [blk01] 2 (fun _ => 23 / 10) = some r ∧
      r.1 0 = 3 / 10 ∧ r.2.1 0 = 1 ∧ r.2.2 = false) ∧ (3 / 10 : ℚ) ≠ 23 / 10 :=
  ⟨cc_blk01_run, by norm_num⟩

/-- C9 (amended): the third element of `check_constrained`'s result is
*always* `false`: the `while` loop exits only after a scan in which no
reflection fired, and it is that final clean scan's flag that is returned.
The returned Boolean therefore carries no information about whether any
reflection occurred during the call. -/
theorem c9_flag_always_false (desc : List Block) (fuel : ℕ) (theta : ℕ → ℚ)
    (r : (ℕ → ℚ) × (ℕ → ℚ) × Bool)
    (h : check_constrained desc fuel theta = some r) : r.2.2 = false :=
  ccAux_flag_false desc fuel theta (fun _ => 1) r h

/-- C9 witness: the amended theorem applied to the concrete reflecting run
above. -/
theorem c9_flag_always_false_witness :
    ((check_constrained [blk01] 2 fun _ => 23 / 10).map fun r => r.2.2)
      = some false := by
  obtain ⟨r, hr, -, -, -⟩ := cc_blk01_run
  rw [hr, Option.map_some']
  exact congrArg some (c9_flag_always_false [blk01] 2 (fun _ => 23 / 10) r hr)

/-! ## C6: termination and degenerate bounds -/

theorem stepComp_blkDeg (s : ℚ) :
    stepComp blkDeg 1 s = (1, s, true, true) := by
  rw [stepComp_eq, stepUpper_fire (show blkDeg.upper = some 0 from rfl)
    (by norm_num) s]
  dsimp only
  rw [stepLower_fire (show blkDeg.lower = some 0 from rfl) (by norm_num) (-s)]
  simp only [Prod.mk.injEq]
  norm_num

theorem ccAux_blkDeg_none :
    ∀ (fuel : ℕ) (theta sign : ℕ → ℚ), theta 0 = 1 →
      ccAux [blkDeg] fuel theta sign = none
  | 0, _, _, _ => rfl
  | fuel + 1, theta, sign, h => by
    have hown : owns blkDeg 0 := by decide
    have hstep : stepComp blkDeg (theta 0) (sign 0)
        = (1, sign 0, true, true) := by rw [h, stepComp_blkDeg]
    have hscanf : (scanDesc [blkDeg] theta sign false).2.2 = true := by
      rw [scanDesc_cons, scanDesc_nil, applyBlock_flag, anyOwned_one blkDeg rfl]
      dsimp only
      rw [show blkDeg.i0 = 0 from rfl, hstep]
      rfl
    have hscanv : (scanDesc [blkDeg] theta sign false).1 0 = 1 := by
      rw [scanDesc_cons, scanDesc_nil,
        (applyBlock_owned blkDeg theta sign 0 hown).1, hstep]
    rw [ccAux_succ, if_pos hscanf]
    exact ccAux_blkDeg_none fuel _ _ hscanv

/-- C6: the code violates the claim — for the degenerate reflection
interval `lower = upper = 0` (width `≤ 0`) and input component `1`, every
scan reflects `1 ↦ -1 ↦ 1` and raises the out-of-bounds flag again, so
`check_constrained` never terminates, whatever the iteration budget; the
source contains no degenerate-bound detection and no `DegenerateBound`
error.  (The claim's required detection/termination hardening is absent.) -/
theorem c6_degenerate_never_terminates :
    ∀ fuel : ℕ, check_constrained [blkDeg] fuel (fun _ => 1) = none :=
  fun fuel => ccAux_blkDeg_none fuel (fun _ => 1) (fun _ => 1) rfl

/-! ## C4: per-component reflection rule within one scan -/

/-- C4: within one scan of `check_constrained`, a component strictly above
its block's `upper` bound is replaced by `2*upper - x` with its sign entry
negated (provided the reflected value does not in turn fall below a `lower`
bound — the spec's "`upper + δ` for small `δ` less than the interval
width"); a component exactly at the `upper` bound is left unchanged with no
sign flip; and symmetrically a component strictly below `lower` becomes
`2*lower - x` with its sign negated. -/
theorem c4_reflection_per_component (desc : List Block) (theta sign : ℕ → ℚ)
    (b : Block) (hdisj : disjointDescB desc = true) (hb : b ∈ desc)
    (hok : okBoundsB b = true) (i : ℕ) (hi : owns b i) :
    (∀ u, b.upper = some u → u < theta i →
      (∀ l, b.lower = some l → l ≤ 2 * u - theta i) →
      (scanDesc desc theta sign false).1 i = 2 * u - theta i ∧
        (scanDesc desc theta sign false).2.1 i = -(sign i)) ∧
    (∀ u, b.upper = some u → theta i = u →
      (scanDesc desc theta sign false).1 i = theta i ∧
        (scanDesc desc theta sign false).2.1 i = sign i) ∧
    (∀ l, b.lower = some l → theta i < l →
      (scanDesc desc theta sign false).1 i = 2 * l - theta i ∧
        (scanDesc desc theta sign false).2.1 i = -(sign i)) := by
  have hsc := scanDesc_owned desc (disjointDescB_pairwise_owns desc hdisj)
    theta sign false b hb i hi
  refine ⟨?_, ?_, ?_⟩
  · intro u hu hx hl
    have hcomp : stepComp b (theta i) (sign i)
        = (2 * u - theta i, -(sign i), true, false) := by
      rw [stepComp_eq, stepUpper_fire hu hx (sign i)]
      dsimp only
      cases hlb : b.lower with
      | none => rw [stepLower_none hlb]
      | some l => rw [stepLower_skip hlb (not_lt.mpr (hl l hlb))]
    exact ⟨hsc.1.trans (by rw [hcomp]), hsc.2.trans (by rw [hcomp])⟩
  · intro u hu hx
    have hcomp : stepComp b (theta i) (sign i)
        = (theta i, sign i, false, false) := by
      rw [stepComp_eq, stepUpper_skip hu (by rw [hx]; exact lt_irrefl u)]
      dsimp only
      cases hlb : b.lower with
      | none => rw [stepLower_none hlb]
      | some l =>
        have hlt : l < u := okBoundsB_lt hok hlb hu
        rw [stepLower_skip hlb (not_lt.mpr (le_of_lt (hx ▸ hlt)))]
    exact ⟨hsc.1.trans (by rw [hcomp]), hsc.2.trans (by rw [hcomp])⟩
  · intro l hl hx
    have hcomp : stepComp b (theta i) (sign i)
        = (2 * l - theta i, -(sign i), false, true) := by
      have hup : stepUpper b (theta i) (sign i) = (theta i, sign i, false) := by
        cases hub : b.upper with
        | none => exact stepUpper_none hub _ _
        | some u =>
          have hlt : l < u := okBoundsB_lt hok hl hub
          exact stepUpper_skip hub (not_lt.mpr (le_of_lt (hx.trans hlt))) _
      rw [stepComp_eq, hup]
      dsimp only
      rw [stepLower_fire hl hx (sign i)]
    exact ⟨hsc.1.trans (by rw [hcomp]), hsc.2.trans (by rw [hcomp])⟩

/-- C4 witness: on the concrete descriptor with bounds `[0, 1]` and input
component `3/2` (i.e. `upper + δ` with `δ = 1/2` less than the interval
width), one scan yields `1/2 = upper - δ` with the sign flipped. -/
theorem c4_reflection_per_component_witness :
    disjointDescB [blk01] = true ∧ okBoundsB blk01 = true ∧ owns blk01 0 ∧
      (scanDesc [blk01] (fun _ => 3 / 2) (fun _ => 1) false).1 0 = 1 / 2 ∧
      (scanDesc [blk01] (fun _ => 3 / 2) (fun _ => 1) false).2.1 0 = -1 := by
  refine ⟨by decide, by decide, by decide, ?_, ?_⟩
  all_goals
    have h := (c4_reflection_per_component [blk01] (fun _ => 3 / 2)
      (fun _ => 1) blk01 (by decide) (List.mem_singleton.mpr rfl) (by decide)
      0 (by decide)).1 1 rfl (by norm_num)
      (fun l hl => by
        rw [show blk01.lower = some 0 from rfl] at hl
        injection hl with hl
        rw [← hl]
        norm_num)
  · rw [h.1]
    norm_num
  · rw [h.2]

/-! ## C5: per-component trajectory lemmas -/

theorem compStep_eq (b : Block) (p : ℚ × ℚ) :
    compStep b p = ((stepComp b p.1 p.2).1, (stepComp b p.1 p.2).2.1) := rfl

theorem compStepC_eq (b : Block) (p : ℚ × ℚ × ℕ) :
    compStepC b p =
      ((stepComp b p.1 p.2.1).1, (stepComp b p.1 p.2.1).2.1,
        p.2.2 + bitN (stepComp b p.1 p.2.1).2.2.1
          + bitN (stepComp b p.1 p.2.1).2.2.2) := rfl

theorem compStep_inB {b : Block} {p : ℚ × ℚ} (h : inBounds b p.1) :
    compStep b p = p := by
  rw [compStep_eq, stepComp_inBounds h p.2]

theorem compStep_iterate_stable {b : Block} {p : ℚ × ℚ} (h : inBounds b p.1) :
    ∀ d : ℕ, (compStep b)^[d] p = p := by
  intro d
  induction d with
  | zero => rfl
  | succ d ih => rw [Function.iterate_succ_apply, compStep_inB h, ih]

theorem inB_forever {b : Block} {p : ℚ × ℚ} {m : ℕ}
    (h : inBounds b ((compStep b)^[m] p).1) :
    ∀ m' ≥ m, inBounds b ((compStep b)^[m'] p).1 := by
  intro m' hm
  have hd : m' = (m' - m) + m := (Nat.sub_add_cancel hm).symm
  rw [hd, Function.iterate_add_apply, compStep_iterate_stable h]
  exact h

theorem noFire_inBounds {b : Block} {x s : ℚ}
    (h1 : (stepComp b x s).2.2.1 = false)
    (h2 : (stepComp b x s).2.2.2 = false) : inBounds b x := by
  constructor
  · intro u hu
    by_contra hlt
    rw [stepComp_eq, stepUpper_fire hu (not_le.mp hlt) s] at h1
    cases h1
  · intro l hl
    have hup : stepUpper b x s = (x, s, false) := by
      cases hub : b.upper with
      | none => exact stepUpper_none hub x s
      | some u =>
        by_cases hlt : u < x
        · rw [stepComp_eq, stepUpper_fire hub hlt s] at h1
          cases h1
        · exact stepUpper_skip hub hlt s
    by_contra hxl
    rw [stepComp_eq, hup] at h2
    dsimp only at h2
    rw [stepLower_fire hl (not_le.mp hxl) s] at h2
    cases h2

theorem stepComp_sign (b : Block) (x s : ℚ) :
    (stepComp b x s).2.1 =
      (-1 : ℚ) ^ (bitN (stepComp b x s).2.2.1 + bitN (stepComp b x s).2.2.2)
        * s := by
  have hup : ∃ x1 f1, stepUpper b x s = (x1, (-1 : ℚ) ^ bitN f1 * s, f1) := by
    cases hub : b.upper with
    | none => exact ⟨x, false, by rw [stepUpper_none hub]; norm_num [bitN]⟩
    | some u =>
      by_cases hlt : u < x
      · exact ⟨2 * u - x, true, by rw [stepUpper_fire hub hlt]; norm_num [bitN]⟩
      · exact ⟨x, false, by rw [stepUpper_skip hub hlt]; norm_num [bitN]⟩
  obtain ⟨x1, f1, h1⟩ := hup
  have hlo : ∃ x2 f2, stepLower b x1 ((-1 : ℚ) ^ bitN f1 * s)
      = (x2, (-1 : ℚ) ^ bitN f2 * ((-1 : ℚ) ^ bitN f1 * s), f2) := by
    cases hlb : b.lower with
    | none => exact ⟨x1, false, by rw [stepLower_none hlb]; norm_num [bitN]⟩
    | some l =>
      by_cases hlt : x1 < l
      · exact ⟨2 * l - x1, true, by rw [stepLower_fire hlb hlt]; norm_num [bitN]⟩
      · exact ⟨x1, false, by rw [stepLower_skip hlb hlt]; norm_num [bitN]⟩
  obtain ⟨x2, f2, h2⟩ := hlo
  rw [stepComp_eq, h1]
  dsimp only
  rw [h2]
  dsimp only
  rw [pow_add]
  ring

theorem compStepC_proj (b : Block) (p : ℚ × ℚ × ℕ) :
    ((compStepC b p).1, (compStepC b p).2.1) = compStep b (p.1, p.2.1) := rfl

theorem compStepC_iter_proj (b : Block) :
    ∀ (m : ℕ) (p : ℚ × ℚ × ℕ),
      (((compStepC b)^[m] p).1, ((compStepC b)^[m] p).2.1)
        = (compStep b)^[m] (p.1, p.2.1)
  | 0, _ => rfl
  | m + 1, p => by
    rw [Function.iterate_succ_apply, Function.iterate_succ_apply,
      compStepC_iter_proj b m (compStepC b p), compStepC_proj]

theorem compStepC_sign_invariant (b : Block) {p : ℚ × ℚ × ℕ}
    (h : p.2.1 = (-1 : ℚ) ^ p.2.2) :
    (compStepC b p).2.1 = (-1 : ℚ) ^ (compStepC b p).2.2 := by
  rw [compStepC_eq]
  dsimp only
  rw [stepComp_sign, h, pow_add, pow_add]
  ring

theorem compStepC_iter_sign (b : Block) :
    ∀ (m : ℕ) {p : ℚ × ℚ × ℕ}, p.2.1 = (-1 : ℚ) ^ p.2.2 →
      ((compStepC b)^[m] p).2.1 = (-1 : ℚ) ^ ((compStepC b)^[m] p).2.2
  | 0, _, h => h
  | m + 1, p, h => by
    rw [Function.iterate_succ_apply]
    exact compStepC_iter_sign b m (compStepC_sign_invariant b h)

theorem inBounds_iff {b : Block} {l u : ℚ} (hl : b.lower = some l)
    (hu : b.upper = some u) (x : ℚ) : inBounds b x ↔ x ≤ u ∧ l ≤ x := by
  constructor
  · intro h
    exact ⟨h.1 u hu, h.2 l hl⟩
  · intro h
    constructor
    · intro u2 hu2
      rw [hu] at hu2
      injection hu2 with e
      rw [← e]
      exact h.1
    · intro l2 hl2
      rw [hl] at hl2
      injection hl2 with e
      rw [← e]
      exact h.2

theorem compStep_above_in {b : Block} {l u : ℚ} (hl : b.lower = some l)
    (hu : b.upper = some u) {x : ℚ} (s : ℚ) (hx : u < x)
    (hx2 : x ≤ u + 2 * (u - l)) :
    inBounds b ((compStep b (x, s)).1) := by
  rw [compStep_eq]
  dsimp only
  rw [stepComp_eq, stepUpper_fire hu hx s]
  dsimp only
  by_cases hc : l ≤ 2 * u - x
  · rw [stepLower_skip hl (not_lt.mpr hc)]
    dsimp only
    exact (inBounds_iff hl hu _).mpr ⟨by linarith, hc⟩
  · push_neg at hc
    rw [stepLower_fire hl hc]
    dsimp only
    exact (inBounds_iff hl hu _).mpr ⟨by linarith, by linarith⟩

theorem compStep_above_step {b : Block} {l u : ℚ} (hl : b.lower = some l)
    (hu : b.upper = some u) (hw : l < u) {x : ℚ} (s : ℚ)
    (hx : u + 2 * (u - l) < x) :
    (compStep b (x, s)).1 = x - 2 * (u - l) := by
  rw [compStep_eq]
  dsimp only
  rw [stepComp_eq, stepUpper_fire hu (by linarith) s]
  dsimp only
  rw [stepLower_fire hl (by linarith)]
  ring

theorem compStep_below_in {b : Block} {l u : ℚ} (hl : b.lower = some l)
    (hu : b.upper = some u) {x : ℚ} (s : ℚ) (hx : x < l)
    (hx2 : l - (u - l) ≤ x) :
    inBounds b ((compStep b (x, s)).1) := by
  rw [compStep_eq]
  dsimp only
  rw [stepComp_eq, stepUpper_skip hu (by
    intro hcon
    exact absurd hcon (not_lt.mpr (by linarith))) s]
  dsimp only
  rw [stepLower_fire hl hx]
  dsimp only
  exact (inBounds_iff hl hu _).mpr ⟨by linarith, by linarith⟩

theorem compStep_below_jump {b : Block} {l u : ℚ} (hl : b.lower = some l)
    (hu : b.upper = some u) {x : ℚ} (s : ℚ) (hx : x < l - (u - l)) (hw : l < u) :
    (compStep b (x, s)).1 = 2 * l - x ∧ u < 2 * l - x := by
  constructor
  · rw [compStep_eq]
    dsimp only
    rw [stepComp_eq, stepUpper_skip hu (by
      intro hcon
      exact absurd hcon (not_lt.mpr (by linarith))) s]
    dsimp only
    rw [stepLower_fire hl (by linarith)]
  · linarith

theorem conv_above {b : Block} {l u : ℚ} (hl : b.lower = some l)
    (hu : b.upper = some u) (hw : l < u) :
    ∀ (k : ℕ) (x s : ℚ), u < x → x ≤ u + 2 * (u - l) * (k + 1) →
      ∃ m, inBounds b ((compStep b)^[m] (x, s)).1 := by
  intro k
  induction k with
  | zero =>
    intro x s hx hx2
    push_cast at hx2
    refine ⟨1, ?_⟩
    rw [Function.iterate_one]
    exact compStep_above_in hl hu s hx (by linarith)
  | succ k ih =>
    intro x s hx hx2
    by_cases hc : x ≤ u + 2 * (u - l)
    · refine ⟨1, ?_⟩
      rw [Function.iterate_one]
      exact compStep_above_in hl hu s hx hc
    · push_neg at hc
      have hstep := compStep_above_step hl hu hw s hc
      obtain ⟨m, hm⟩ := ih (compStep b (x, s)).1 (compStep b (x, s)).2
        (by rw [hstep]; linarith) (by rw [hstep]; push_cast at hx2; linarith)
      refine ⟨m + 1, ?_⟩
      rw [Function.iterate_succ_apply]
      exact hm

theorem inBounds_none {b : Block} (hu : b.upper = none) (hl : b.lower = none)
    (y : ℚ) : inBounds b y := by
  constructor
  · intro u2 hu2
    rw [hu] at hu2
    cases hu2
  · intro l2 hl2
    rw [hl] at hl2
    cases hl2

theorem inBounds_upper_only {b : Block} {u : ℚ} (hu : b.upper = some u)
    (hl : b.lower = none) {y : ℚ} (hy : y ≤ u) : inBounds b y := by
  constructor
  · intro u2 hu2
    rw [hu] at hu2
    injection hu2 with e
    rw [← e]
    exact hy
  · intro l2 hl2
    rw [hl] at hl2
    cases hl2

theorem inBounds_lower_only {b : Block} {l : ℚ} (hl : b.lower = some l)
    (hu : b.upper = none) {y : ℚ} (hy : l ≤ y) : inBounds b y := by
  constructor
  · intro u2 hu2
    rw [hu] at hu2
    cases hu2
  · intro l2 hl2
    rw [hl] at hl2
    injection hl2 with e
    rw [← e]
    exact hy

theorem comp_conv {b : Block} (hok : okBoundsB b = true) (x s : ℚ) :
    ∃ m, ∀ m' ≥ m, inBounds b ((compStep b)^[m'] (x, s)).1 := by
  cases hub : b.upper with
  | none =>
    cases hlb : b.lower with
    | none =>
      exact ⟨0, fun m2 _ => inBounds_none hub hlb _⟩
    | some l =>
      by_cases hc : l ≤ x
      · exact ⟨0, inB_forever (m := 0) (inBounds_lower_only hlb hub hc)⟩
      · push_neg at hc
        refine ⟨1, inB_forever (m := 1) ?_⟩
        rw [Function.iterate_one, compStep_eq]
        dsimp only
        rw [stepComp_eq, stepUpper_none hub]
        dsimp only
        rw [stepLower_fire hlb hc]
        dsimp only
        exact inBounds_lower_only hlb hub (by linarith)
  | some u =>
    cases hlb : b.lower with
    | none =>
      by_cases hc : x ≤ u
      · exact ⟨0, inB_forever (m := 0) (inBounds_upper_only hub hlb hc)⟩
      · push_neg at hc
        refine ⟨1, inB_forever (m := 1) ?_⟩
        rw [Function.iterate_one, compStep_eq]
        dsimp only
        rw [stepComp_eq, stepUpper_fire hub hc s]
        dsimp only
        rw [stepLower_none hlb]
        dsimp only
        exact inBounds_upper_only hub hlb (by linarith)
    | some l =>
      have hw : l < u := okBoundsB_lt hok hlb hub
      by_cases hin : inBounds b x
      · exact ⟨0, inB_forever (m := 0) hin⟩
      · rw [inBounds_iff hlb hub] at hin
        by_cases hab : u < x
        · obtain ⟨k, hk⟩ := exists_nat_ge ((x - u) / (2 * (u - l)))
          have hpos : (0 : ℚ) < 2 * (u - l) := by linarith
          have h2 : x - u ≤ (k : ℚ) * (2 * (u - l)) := (div_le_iff₀ hpos).mp hk
          have h3 : x ≤ u + 2 * (u - l) * ((k : ℚ) + 1) := by nlinarith
          obtain ⟨m, hm⟩ := conv_above hlb hub hw k x s hab (by linarith)
          exact ⟨m, inB_forever hm⟩
        · push_neg at hab
          have hbe : x < l := by
            rcases not_and_or.mp hin with h | h
            · exact absurd hab (not_le.mpr (not_le.mp h))
            · exact not_le.mp h
          by_cases hnear : l - (u - l) ≤ x
          · refine ⟨1, inB_forever (m := 1) ?_⟩
            rw [Function.iterate_one]
            exact compStep_below_in hlb hub s hbe hnear
          · push_neg at hnear
            obtain ⟨hval, hgt⟩ := compStep_below_jump hlb hub s hnear hw
            obtain ⟨k, hk⟩ :=
              exists_nat_ge ((2 * l - x - u) / (2 * (u - l)))
            have hpos : (0 : ℚ) < 2 * (u - l) := by linarith
            have h2 : 2 * l - x - u ≤ (k : ℚ) * (2 * (u - l)) :=
              (div_le_iff₀ hpos).mp hk
            have h3 : 2 * l - x ≤ u + 2 * (u - l) * ((k : ℚ) + 1) := by nlinarith
            obtain ⟨m, hm⟩ := conv_above hlb hub hw k
              (compStep b (x, s)).1 (compStep b (x, s)).2
              (by rw [hval]; exact hgt) (by rw [hval]; linarith)
            refine ⟨m + 1, inB_forever ?_⟩
            rw [Function.iterate_succ_apply]
            exact hm

theorem applyBlock_flag_false_of_inB (b : Block) (theta sign : ℕ → ℚ)
    (h : ∀ i, owns b i → inBounds b (theta i)) :
    (applyBlock b theta sign).2.2 = false := by
  rw [applyBlock_flag]
  unfold anyOwned
  apply List.any_eq_false.mpr
  intro k hk
  have hown : owns b (b.i0 + k) :=
    ⟨Nat.le_add_right _ _, Nat.add_lt_add_left (List.mem_range.mp hk) _⟩
  show ¬ ((stepComp b (theta (b.i0 + k)) (sign (b.i0 + k))).2.2.1
    || (stepComp b (theta (b.i0 + k)) (sign (b.i0 + k))).2.2.2) = true
  rw [stepComp_inBounds (h _ hown)]
  simp

theorem scanDesc_flag_of_inB :
    ∀ (desc : List Block),
      List.Pairwise (fun a b => ∀ j, owns a j → owns b j → False) desc →
      ∀ (theta sign : ℕ → ℚ) (o : Bool),
        (∀ b ∈ desc, ∀ i, owns b i → inBounds b (theta i)) →
        (scanDesc desc theta sign o).2.2 = o
  | [], _, _, _, _, _ => rfl
  | hd :: t, hdisj, theta, sign, o, h => by
    rcases List.pairwise_cons.mp hdisj with ⟨hhd, ht⟩
    rw [scanDesc_cons,
      applyBlock_flag_false_of_inB hd theta sign (h hd (List.mem_cons_self hd t)),
      Bool.or_false]
    apply scanDesc_flag_of_inB t ht
    intro b hb i hi
    rw [(applyBlock_unowned hd theta sign i fun hw => hhd b hb i hw hi).1]
    exact h b (List.mem_cons_of_mem hd hb) i hi

theorem scanDesc_flag_mono :
    ∀ (desc : List Block) (theta sign : ℕ → ℚ) (o : Bool),
      (scanDesc desc theta sign o).2.2 = false → o = false
  | [], _, _, _, h => h
  | hd :: t, theta, sign, o, h => by
    rw [scanDesc_cons] at h
    have := scanDesc_flag_mono t _ _ _ h
    exact Bool.or_eq_false_iff.mp this |>.1

theorem scanDesc_noFire :
    ∀ (desc : List Block),
      List.Pairwise (fun a b => ∀ j, owns a j → owns b j → False) desc →
      ∀ (theta sign : ℕ → ℚ),
        (scanDesc desc theta sign false).2.2 = false →
        ∀ b ∈ desc, ∀ i, owns b i → inBounds b (theta i)
  | [], _, _, _, _, b, hb, _, _ => absurd hb (List.not_mem_nil b)
  | hd :: t, hdisj, theta, sign, h, b, hb, i, hi => by
    rcases List.pairwise_cons.mp hdisj with ⟨hhd, ht⟩
    rw [scanDesc_cons] at h
    have hfhd : (applyBlock hd theta sign).2.2 = false := by
      have := scanDesc_flag_mono t _ _ _ h
      exact Bool.or_eq_false_iff.mp this |>.2
    rcases List.mem_cons.mp hb with rfl | hbt
    · rw [applyBlock_flag] at hfhd
      unfold anyOwned at hfhd
      have hmem : i - b.i0 ∈ List.range b.N := by
        rcases hi with ⟨h1, h2⟩
        exact List.mem_range.mpr (by omega)
      have hflags := List.any_eq_false.mp hfhd (i - b.i0) hmem
      rw [Nat.add_sub_cancel' hi.1] at hflags
      have hflags2 : ((stepComp b (theta i) (sign i)).2.2.1
          || (stepComp b (theta i) (sign i)).2.2.2) = false := by
        simpa using hflags
      rcases Bool.or_eq_false_iff.mp hflags2 with ⟨hf1, hf2⟩
      exact noFire_inBounds hf1 hf2
    · have hnohd : ¬ owns hd i := fun hw => hhd b hbt i hw hi
      have hfl : (scanDesc t (applyBlock hd theta sign).1
          (applyBlock hd theta sign).2.1 false).2.2 = false := by
        rw [hfhd, Bool.false_or] at h
        exact h
      have := scanDesc_noFire t ht _ _ hfl b hbt i hi
      rw [(applyBlock_unowned hd theta sign i hnohd).1] at this
      exact this

theorem scanDesc_owned_pair (desc : List Block)
    (hdisj : List.Pairwise (fun a b => ∀ j, owns a j → owns b j → False) desc)
    (theta sign : ℕ → ℚ) (o : Bool) (b : Block) (hb : b ∈ desc) (i : ℕ)
    (hi : owns b i) :
    ((scanDesc desc theta sign o).1 i, (scanDesc desc theta sign o).2.1 i)
      = compStep b (theta i, sign i) := by
  have h := scanDesc_owned desc hdisj theta sign o b hb i hi
  rw [h.1, h.2, compStep_eq]

theorem ccAux_traj (desc : List Block)
    (hdisj : List.Pairwise (fun a b => ∀ j, owns a j → owns b j → False) desc) :
    ∀ (fuel : ℕ) (theta sign : ℕ → ℚ) (r : (ℕ → ℚ) × (ℕ → ℚ) × Bool),
      ccAux desc fuel theta sign = some r →
      ∃ M, ∀ b ∈ desc, ∀ i, owns b i →
        (r.1 i, r.2.1 i) = (compStep b)^[M] (theta i, sign i) ∧
          inBounds b (r.1 i)
  | 0, _, _, _, h => by cases h
  | fuel + 1, theta, sign, r, h => by
    rw [ccAux_succ] at h
    by_cases hf : (scanDesc desc theta sign false).2.2
    · rw [if_pos hf] at h
      obtain ⟨M, hM⟩ := ccAux_traj desc hdisj fuel _ _ r h
      refine ⟨M + 1, fun b hb i hi => ?_⟩
      have h1 := (hM b hb i hi).1
      rw [scanDesc_owned_pair desc hdisj theta sign false b hb i hi,
        ← Function.iterate_succ_apply] at h1
      exact ⟨h1, (hM b hb i hi).2⟩
    · rw [if_neg hf] at h
      have hf2 : (scanDesc desc theta sign false).2.2 = false := by
        simpa using hf
      cases h
      refine ⟨1, fun b hb i hi => ?_⟩
      have hpair := scanDesc_owned_pair desc hdisj theta sign false b hb i hi
      have hin := scanDesc_noFire desc hdisj theta sign hf2 b hb i hi
      have hid : compStep b (theta i, sign i) = (theta i, sign i) :=
        compStep_inB hin
      constructor
      · rw [Function.iterate_one]
        exact hpair
      · have h1 : (scanDesc desc theta sign false).1 i
            = (compStep b (theta i, sign i)).1 := congrArg Prod.fst hpair
        rw [h1, hid]
        exact hin

theorem list_uniform_bound {α : Type} :
    ∀ (l : List α) (Q : α → ℕ → Prop),
      (∀ a ∈ l, ∃ m, ∀ m' ≥ m, Q a m') →
      ∃ M, ∀ m' ≥ M, ∀ a ∈ l, Q a m'
  | [], _, _ => ⟨0, fun _ _ a ha => absurd ha (List.not_mem_nil a)⟩
  | hd :: t, Q, h => by
    obtain ⟨mh, hmh⟩ := h hd (List.mem_cons_self hd t)
    obtain ⟨Mt, hMt⟩ := list_uniform_bound t Q
      (fun a ha => h a (List.mem_cons_of_mem hd ha))
    refine ⟨max mh Mt, fun m2 hm2 a ha => ?_⟩
    rcases List.mem_cons.mp ha with rfl | hat
    · exact hmh m2 (le_trans (le_max_left _ _) hm2)
    · exact hMt m2 (le_trans (le_max_right _ _) hm2) a hat

theorem ccAux_fuel_of_inB (desc : List Block)
    (hdisj : List.Pairwise (fun a b => ∀ j, owns a j → owns b j → False) desc) :
    ∀ (M : ℕ) (theta sign : ℕ → ℚ),
      (∀ b ∈ desc, ∀ i, owns b i →
        inBounds b ((compStep b)^[M] (theta i, sign i)).1) →
      ∃ r, ccAux desc (M + 1) theta sign = some r
  | 0, theta, sign, h => by
    have hflag := scanDesc_flag_of_inB desc hdisj theta sign false
      (fun b hb i hi => h b hb i hi)
    refine ⟨((scanDesc desc theta sign false).1,
      (scanDesc desc theta sign false).2.1,
      (scanDesc desc theta sign false).2.2), ?_⟩
    rw [ccAux_succ, if_neg (by rw [hflag]; simp)]
  | M + 1, theta, sign, h => by
    by_cases hf : (scanDesc desc theta sign false).2.2
    · have hnext : ∀ b ∈ desc, ∀ i, owns b i →
          inBounds b ((compStep b)^[M]
            ((scanDesc desc theta sign false).1 i,
             (scanDesc desc theta sign false).2.1 i)).1 := by
        intro b hb i hi
        rw [scanDesc_owned_pair desc hdisj theta sign false b hb i hi,
          ← Function.iterate_succ_apply]
        exact h b hb i hi
      obtain ⟨r, hr⟩ := ccAux_fuel_of_inB desc hdisj M _ _ hnext
      refine ⟨r, ?_⟩
      rw [ccAux_succ, if_pos hf]
      exact hr
    · refine ⟨((scanDesc desc theta sign false).1,
        (scanDesc desc theta sign false).2.1,
        (scanDesc desc theta sign false).2.2), ?_⟩
      rw [ccAux_succ, if_neg hf]

theorem ccAux_terminates (desc : List Block)
    (hdisj : List.Pairwise (fun a b => ∀ j, owns a j → owns b j → False) desc)
    (hok : ∀ b ∈ desc, okBoundsB b = true) (theta sign : ℕ → ℚ) :
    ∃ fuel r, ccAux desc fuel theta sign = some r := by
  have hper : ∀ p ∈ desc.flatMap
      (fun b => (List.range b.N).map fun k => (b, b.i0 + k)),
      ∃ m, ∀ m' ≥ m,
        inBounds p.1 ((compStep p.1)^[m'] (theta p.2, sign p.2)).1 := by
    intro p hp
    obtain ⟨b, hb, hk⟩ := List.mem_flatMap.mp hp
    obtain ⟨k, _, hpe⟩ := List.mem_map.mp hk
    exact hpe ▸ comp_conv (hok b hb) (theta (b.i0 + k)) (sign (b.i0 + k))
  obtain ⟨M, hM⟩ := list_uniform_bound _ _ hper
  have hin : ∀ b ∈ desc, ∀ i, owns b i →
      inBounds b ((compStep b)^[M] (theta i, sign i)).1 := by
    intro b hb i hi
    have hmem : (b, i) ∈ desc.flatMap
        (fun b => (List.range b.N).map fun k => (b, b.i0 + k)) :=
      List.mem_flatMap.mpr ⟨b, hb, List.mem_map.mpr ⟨i - b.i0,
        List.mem_range.mpr (by rcases hi with ⟨h1, h2⟩; omega),
        by rw [Nat.add_sub_cancel' hi.1]⟩⟩
    exact hM M (le_refl M) (b, i) hmem
  obtain ⟨r, hr⟩ := ccAux_fuel_of_inB desc hdisj M theta sign hin
  exact ⟨M + 1, r, hr⟩

/-- C5: for a descriptor with pairwise-disjoint slices whose two-sided
reflection intervals all satisfy `lower < upper`, and any (finite, rational)
input position, `check_constrained` terminates (some fuel suffices for the
embedded `while` loop); every bounded component of the returned position is
within its `[lower, upper]` interval; and each component's returned value
and sign are exactly the `M`-fold per-component reflection iterate, the sign
being `(-1)` raised to the number of reflections applied to that component
(`compStepC` counts one per fired bound phase, so a component may be
reflected several times across successive scans). -/
theorem c5_reflection_global_convergence (desc : List Block) (theta : ℕ → ℚ)
    (hdisj : disjointDescB desc = true)
    (hok : ∀ b ∈ desc, okBoundsB b = true) :
    ∃ fuel r M, check_constrained desc fuel theta = some r ∧
      ∀ b ∈ desc, ∀ i, owns b i →
        inBounds b (r.1 i) ∧
        r.1 i = ((compStepC b)^[M] (theta i, 1, 0)).1 ∧
        r.2.1 i = (-1 : ℚ) ^ ((compStepC b)^[M] (theta i, 1, 0)).2.2 := by
  have hd2 := disjointDescB_pairwise_owns desc hdisj
  obtain ⟨fuel, r, hr⟩ := ccAux_terminates desc hd2 hok theta (fun _ => 1)
  obtain ⟨M, hM⟩ := ccAux_traj desc hd2 fuel theta (fun _ => 1) r hr
  refine ⟨fuel, r, M, hr, fun b hb i hi => ?_⟩
  obtain ⟨hpair, hin⟩ := hM b hb i hi
  have hproj := compStepC_iter_proj b M (theta i, 1, 0)
  have hx : r.1 i = ((compStepC b)^[M] (theta i, 1, 0)).1 :=
    congrArg Prod.fst (hpair.trans hproj.symm)
  have hs : r.2.1 i = ((compStepC b)^[M] (theta i, 1, 0)).2.1 :=
    congrArg Prod.snd (hpair.trans hproj.symm)
  refine ⟨hin, hx, ?_⟩
  rw [hs]
  exact compStepC_iter_sign b M (by norm_num)

/-- C5 witness: the spec's own example — bounds `[0, 1]` and input
component `2.3`; convergence and the sign law are delivered by
`c5_reflection_global_convergence`. -/
theorem c5_reflection_global_convergence_witness :
    disjointDescB [blk01] = true ∧ (∀ b ∈ [blk01], okBoundsB b = true) ∧
      ∃ fuel r M,
        check_constrained [blk01] fuel (fun _ => 23 / 10) = some r ∧
        ∀ b ∈ [blk01], ∀ i, owns b i →
          inBounds b (r.1 i) ∧
          r.1 i = ((compStepC b)^[M] ((fun _ => (23 : ℚ) / 10) i, 1, 0)).1 ∧
          r.2.1 i
            = (-1 : ℚ) ^ ((compStepC b)^[M] ((fun _ => (23 : ℚ) / 10) i, 1, 0)).2.2 :=
  ⟨by decide, by decide,
    c5_reflection_global_convergence [blk01] (fun _ => 23 / 10)
      (by decide) (by decide)⟩

/-! ## C8: `bounds` -/

/-- C8 counterexample: for a concrete one-block descriptor with `N = 2`
components and scalar bound arguments `mini = 1`, `maxi = 2`, `bounds`
leaves the block's second component at the sentinel `(0, 0)` instead of
broadcasting `(1, 2)` across all components. -/
theorem c8_bounds_counterexample :
    ((boundsD [blkSB]).map fun f => f 1) = some ((0 : ℚ), (0 : ℚ)) ∧
      ((0 : ℚ), (0 : ℚ)) ≠ ((1 : ℚ), (2 : ℚ)) := by
  exact ⟨rfl, by decide⟩

theorem foldl_upd_frame_mem {α : Type} (upd : (ℕ → α) → Block → ℕ → α)
    (W : Block → ℕ → Prop) :
    ∀ (desc : List Block),
      (∀ g b i, b ∈ desc → ¬ W b i → upd g b i = g i) →
      ∀ (g0 : ℕ → α) (i : ℕ), (∀ b ∈ desc, ¬ W b i) →
        desc.foldl upd g0 i = g0 i
  | [], _, _, _, _ => rfl
  | hd :: t, Hf, g0, i, h => by
    rw [List.foldl_cons,
      foldl_upd_frame_mem upd W t
        (fun g b j hb => Hf g b j (List.mem_cons_of_mem hd hb))
        (upd g0 hd) i (fun b hb => h b (List.mem_cons_of_mem hd hb)),
      Hf g0 hd i (List.mem_cons_self hd t) (h hd (List.mem_cons_self hd t))]

theorem foldl_upd_write_mem {α : Type} (upd : (ℕ → α) → Block → ℕ → α)
    (W : Block → ℕ → Prop) (V : Block → ℕ → α) :
    ∀ (desc : List Block),
      (∀ g b i, b ∈ desc → ¬ W b i → upd g b i = g i) →
      (∀ g b i, b ∈ desc → W b i → upd g b i = V b i) →
      List.Pairwise (fun a b => ∀ j, W a j → W b j → False) desc →
      ∀ (g0 : ℕ → α) (b : Block), b ∈ desc → ∀ i : ℕ, W b i →
        desc.foldl upd g0 i = V b i
  | [], _, _, _, _, b, hb, _, _ => absurd hb (List.not_mem_nil b)
  | hd :: t, Hf, Hw, hdisj, g0, b, hb, i, hi => by
    rcases List.pairwise_cons.mp hdisj with ⟨hhd, ht⟩
    rw [List.foldl_cons]
    rcases List.mem_cons.mp hb with rfl | hbt
    · rw [foldl_upd_frame_mem upd W t
        (fun g b2 j hb2 => Hf g b2 j (List.mem_cons_of_mem b hb2))
        (upd g0 b) i (fun b2 hb2 hw2 => hhd b2 hb2 i hi hw2),
        Hw g0 b i (List.mem_cons_self b t) hi]
    · exact foldl_upd_write_mem upd W V t
        (fun g b2 j hb2 => Hf g b2 j (List.mem_cons_of_mem hd hb2))
        (fun g b2 j hb2 => Hw g b2 j (List.mem_cons_of_mem hd hb2))
        ht (upd g0 hd) b hbt i hi

theorem range_fold_char (mini maxi : List ℚ) (i0 : ℕ) :
    ∀ (sz : ℕ) (bd : ℕ → ℚ × ℚ) (i : ℕ),
      (List.range sz).foldl
          (fun bd2 k =>
            fun j => if j = i0 + k then (mini.getD k 0, maxi.getD k 0) else bd2 j)
          bd i
        = if i0 ≤ i ∧ i < i0 + sz then (mini.getD (i - i0) 0, maxi.getD (i - i0) 0)
          else bd i
  | 0, bd, i => by
    rw [if_neg (by omega)]
    rfl
  | sz + 1, bd, i => by
    rw [List.range_succ, List.foldl_append, List.foldl_cons, List.foldl_nil]
    by_cases he : i = i0 + sz
    · rw [if_pos he, if_pos (by omega)]
      have : i - i0 = sz := by omega
      rw [this]
    · rw [if_neg he, range_fold_char mini maxi i0 sz bd i]
      by_cases hin : i0 ≤ i ∧ i < i0 + sz
      · rw [if_pos hin, if_pos (by omega)]
      · rw [if_neg hin, if_neg (by omega)]

theorem boundsD_some :
    ∀ (desc : List Block),
      (∀ b ∈ desc, (lookupPA b.prior_args "mini").isSome ∧
        (lookupPA b.prior_args "maxi").isSome) →
      boundsD desc = some (boundsPure desc) := by
  have haux : ∀ (desc : List Block) (acc : ℕ → ℚ × ℚ),
      (∀ b ∈ desc, (lookupPA b.prior_args "mini").isSome ∧
        (lookupPA b.prior_args "maxi").isSome) →
      desc.foldl
          (fun acc2 b => acc2.bind fun bd =>
            (lookupPA b.prior_args "mini").bind fun mini =>
            (lookupPA b.prior_args "maxi").map fun maxi =>
              if mini.length = 1 then
                fun i => if i = b.i0 then (mini.getD 0 0, maxi.getD 0 0) else bd i
              else
                (List.range mini.length).foldl
                  (fun bd2 k =>
                    fun i => if i = b.i0 + k then (mini.getD k 0, maxi.getD k 0)
                      else bd2 i)
                  bd)
          (some acc)
        = some (desc.foldl
            (fun bd b =>
              if ((lookupPA b.prior_args "mini").getD []).length = 1 then
                fun i => if i = b.i0 then
                  (((lookupPA b.prior_args "mini").getD []).getD 0 0,
                   ((lookupPA b.prior_args "maxi").getD []).getD 0 0)
                else bd i
              else
                (List.range ((lookupPA b.prior_args "mini").getD []).length).foldl
                  (fun bd2 k =>
                    fun i => if i = b.i0 + k then
                      (((lookupPA b.prior_args "mini").getD []).getD k 0,
                       ((lookupPA b.prior_args "maxi").getD []).getD k 0)
                    else bd2 i)
                  bd)
            acc) := by
    intro desc
    induction desc with
    | nil => intro acc _; rfl
    | cons hd t ih =>
      intro acc h
      obtain ⟨hm, hM⟩ := h hd (List.mem_cons_self hd t)
      obtain ⟨mini, hmini⟩ := Option.isSome_iff_exists.mp hm
      obtain ⟨maxi, hmaxi⟩ := Option.isSome_iff_exists.mp hM
      rw [List.foldl_cons, List.foldl_cons, Option.some_bind, hmini,
        Option.some_bind, hmaxi, Option.map_some',
        ih _ (fun b hb => h b (List.mem_cons_of_mem hd hb))]
      simp only [Option.getD_some]
  intro desc h
  exact haux desc (fun _ => ((0 : ℚ), (0 : ℚ))) h

/-- C8 (amended): `bounds()` requires every block's `prior_args` to define
`mini` and `maxi` (`KeyError` otherwise, the call fails), and it does *not*
broadcast a scalar bound: a block whose bound arguments have size 1 gets
the pair written at its first flat index only, every further component of
that block keeping the sentinel `(0, 0)`; a block with vector bounds of
size `sz` gets the `k`-th pair at index `i0 + k` for `k < sz`. -/
theorem c8_bounds_characterization (desc : List Block)
    (hdisj : disjointDescB desc = true)
    (hargs : ∀ b ∈ desc, (lookupPA b.prior_args "mini").isSome ∧
      (lookupPA b.prior_args "maxi").isSome)
    (hsz : ∀ b ∈ desc, 1 ≤ b.N ∧
      (((lookupPA b.prior_args "mini").getD []).length = 1 ∨
        ((lookupPA b.prior_args "mini").getD []).length = b.N)) :
    ∃ f, boundsD desc = some f ∧
      ∀ b ∈ desc,
        (((lookupPA b.prior_args "mini").getD []).length = 1 →
          f b.i0 = (((lookupPA b.prior_args "mini").getD []).getD 0 0,
            ((lookupPA b.prior_args "maxi").getD []).getD 0 0) ∧
          ∀ k, 1 ≤ k → k < b.N → f (b.i0 + k) = (0, 0)) ∧
        (((lookupPA b.prior_args "mini").getD []).length ≠ 1 →
          ∀ k, k < ((lookupPA b.prior_args "mini").getD []).length →
            f (b.i0 + k) = (((lookupPA b.prior_args "mini").getD []).getD k 0,
              ((lookupPA b.prior_args "maxi").getD []).getD k 0)) := by
  have hd2 := disjointDescB_pairwise_owns desc hdisj
  have Hf : ∀ (g : ℕ → ℚ × ℚ) (b : Block) (i : ℕ), b ∈ desc →
      ¬ (owns b i ∧
        ((((lookupPA b.prior_args "mini").getD []).length = 1 ∧ i = b.i0) ∨
         (((lookupPA b.prior_args "mini").getD []).length ≠ 1 ∧
           b.i0 ≤ i ∧ i < b.i0 + ((lookupPA b.prior_args "mini").getD []).length))) →
      (if ((lookupPA b.prior_args "mini").getD []).length = 1 then
        fun j => if j = b.i0 then
          (((lookupPA b.prior_args "mini").getD []).getD 0 0,
           ((lookupPA b.prior_args "maxi").getD []).getD 0 0)
        else g j
      else
        (List.range ((lookupPA b.prior_args "mini").getD []).length).foldl
          (fun bd2 k =>
            fun j => if j = b.i0 + k then
              (((lookupPA b.prior_args "mini").getD []).getD k 0,
               ((lookupPA b.prior_args "maxi").getD []).getD k 0)
            else bd2 j)
          g) i = g i := by
    intro g b i hb hnw
    obtain ⟨hN, hlen⟩ := hsz b hb
    by_cases hm1 : ((lookupPA b.prior_args "mini").getD []).length = 1
    · rw [if_pos hm1]
      refine if_neg fun he => hnw ?_
      exact ⟨⟨by omega, by omega⟩, Or.inl ⟨hm1, he⟩⟩
    · rw [if_neg hm1, range_fold_char]
      refine if_neg fun hc => hnw ?_
      have hlN : ((lookupPA b.prior_args "mini").getD []).length = b.N := by
        rcases hlen with h1 | h1
        · exact absurd h1 hm1
        · exact h1
      exact ⟨⟨hc.1, by omega⟩, Or.inr ⟨hm1, hc⟩⟩
  have Hw : ∀ (g : ℕ → ℚ × ℚ) (b : Block) (i : ℕ), b ∈ desc →
      (owns b i ∧
        ((((lookupPA b.prior_args "mini").getD []).length = 1 ∧ i = b.i0) ∨
         (((lookupPA b.prior_args "mini").getD []).length ≠ 1 ∧
           b.i0 ≤ i ∧ i < b.i0 + ((lookupPA b.prior_args "mini").getD []).length))) →
      (if ((lookupPA b.prior_args "mini").getD []).length = 1 then
        fun j => if j = b.i0 then
          (((lookupPA b.prior_args "mini").getD []).getD 0 0,
           ((lookupPA b.prior_args "maxi").getD []).getD 0 0)
        else g j
      else
        (List.range ((lookupPA b.prior_args "mini").getD []).length).foldl
          (fun bd2 k =>
            fun j => if j = b.i0 + k then
              (((lookupPA b.prior_args "mini").getD []).getD k 0,
               ((lookupPA b.prior_args "maxi").getD []).getD k 0)
            else bd2 j)
          g) i
        = (((lookupPA b.prior_args "mini").getD []).getD (i - b.i0) 0,
           ((lookupPA b.prior_args "maxi").getD []).getD (i - b.i0) 0) := by
    intro g b i hb hw
    rcases hw.2 with ⟨hm1, he⟩ | ⟨hm1, hc⟩
    · rw [if_pos hm1, if_pos he, he, Nat.sub_self]
    · rw [if_neg hm1, range_fold_char, if_pos hc]
  have hpairW : List.Pairwise (fun a b2 => ∀ j,
      (owns a j ∧
        ((((lookupPA a.prior_args "mini").getD []).length = 1 ∧ j = a.i0) ∨
         (((lookupPA a.prior_args "mini").getD []).length ≠ 1 ∧
           a.i0 ≤ j ∧ j < a.i0
             + ((lookupPA a.prior_args "mini").getD []).length))) →
      (owns b2 j ∧
        ((((lookupPA b2.prior_args "mini").getD []).length = 1 ∧ j = b2.i0) ∨
         (((lookupPA b2.prior_args "mini").getD []).length ≠ 1 ∧
           b2.i0 ≤ j ∧ j < b2.i0
             + ((lookupPA b2.prior_args "mini").getD []).length))) →
      False) desc :=
    hd2.imp (fun hab j hWa hWb => hab j hWa.1 hWb.1)
  have hwrite := foldl_upd_write_mem
    (fun bd b =>
      if ((lookupPA b.prior_args "mini").getD []).length = 1 then
        fun j => if j = b.i0 then
          (((lookupPA b.prior_args "mini").getD []).getD 0 0,
           ((lookupPA b.prior_args "maxi").getD []).getD 0 0)
        else bd j
      else
        (List.range ((lookupPA b.prior_args "mini").getD []).length).foldl
          (fun bd2 k =>
            fun j => if j = b.i0 + k then
              (((lookupPA b.prior_args "mini").getD []).getD k 0,
               ((lookupPA b.prior_args "maxi").getD []).getD k 0)
            else bd2 j)
          bd)
    (fun b i => owns b i ∧
      ((((lookupPA b.prior_args "mini").getD []).length = 1 ∧ i = b.i0) ∨
       (((lookupPA b.prior_args "mini").getD []).length ≠ 1 ∧
         b.i0 ≤ i ∧ i < b.i0 + ((lookupPA b.prior_args "mini").getD []).length)))
    (fun b i =>
      (((lookupPA b.prior_args "mini").getD []).getD (i - b.i0) 0,
       ((lookupPA b.prior_args "maxi").getD []).getD (i - b.i0) 0))
    desc Hf Hw hpairW (fun _ => ((0 : ℚ), (0 : ℚ)))
  have hframe := foldl_upd_frame_mem
    (fun bd b =>
      if ((lookupPA b.prior_args "mini").getD []).length = 1 then
        fun j => if j = b.i0 then
          (((lookupPA b.prior_args "mini").getD []).getD 0 0,
           ((lookupPA b.prior_args "maxi").getD []).getD 0 0)
        else bd j
      else
        (List.range ((lookupPA b.prior_args "mini").getD []).length).foldl
          (fun bd2 k =>
            fun j => if j = b.i0 + k then
              (((lookupPA b.prior_args "mini").getD []).getD k 0,
               ((lookupPA b.prior_args "maxi").getD []).getD k 0)
            else bd2 j)
          bd)
    (fun b i => owns b i ∧
      ((((lookupPA b.prior_args "mini").getD []).length = 1 ∧ i = b.i0) ∨
       (((lookupPA b.prior_args "mini").getD []).length ≠ 1 ∧
         b.i0 ≤ i ∧ i < b.i0 + ((lookupPA b.prior_args "mini").getD []).length)))
    desc Hf (fun _ => ((0 : ℚ), (0 : ℚ)))
  refine ⟨boundsPure desc, boundsD_some desc hargs, fun b hb => ⟨?_, ?_⟩⟩
  · intro hm1
    obtain ⟨hN, -⟩ := hsz b hb
    constructor
    · have h := hwrite b hb b.i0 ⟨⟨le_refl _, by omega⟩, Or.inl ⟨hm1, rfl⟩⟩
      rw [Nat.sub_self] at h
      exact h
    · intro k hk1 hkN
      have hnotW : ∀ b2 ∈ desc,
          ¬ (owns b2 (b.i0 + k) ∧
            ((((lookupPA b2.prior_args "mini").getD []).length = 1
                ∧ b.i0 + k = b2.i0) ∨
             (((lookupPA b2.prior_args "mini").getD []).length ≠ 1 ∧
               b2.i0 ≤ b.i0 + k ∧
               b.i0 + k < b2.i0
                 + ((lookupPA b2.prior_args "mini").getD []).length))) := by
        intro b2 hb2
        by_cases hbe : b2 = b
        · subst hbe
          rintro ⟨-, hcase⟩
          rcases hcase with ⟨-, he⟩ | ⟨hne, -⟩
          · omega
          · exact hne hm1
        · rintro ⟨how2, -⟩
          have hsym : Symmetric
              (fun a b : Block => ∀ j, owns a j → owns b j → False) :=
            fun a c hac j hc ha => hac j ha hc
          have how : owns b (b.i0 + k) := ⟨Nat.le_add_right _ _, by omega⟩
          exact List.Pairwise.forall hsym hd2 hb2 hb hbe (b.i0 + k) how2 how
      exact hframe (b.i0 + k) hnotW
  · intro hm1 k hk
    obtain ⟨hN, hlen⟩ := hsz b hb
    have hlN : ((lookupPA b.prior_args "mini").getD []).length = b.N := by
      rcases hlen with h1 | h1
      · exact absurd h1 hm1
      · exact h1
    have h := hwrite b hb (b.i0 + k)
      ⟨⟨Nat.le_add_right _ _, by omega⟩,
        Or.inr ⟨hm1, Nat.le_add_right _ _, by omega⟩⟩
    rw [Nat.add_sub_cancel_left] at h
    exact h

/-- C8 witness: the amended characterisation applied to the concrete
two-component block with scalar bounds. -/
theorem c8_bounds_characterization_witness :
    disjointDescB [blkSB] = true ∧
      (∀ b ∈ [blkSB], (lookupPA b.prior_args "mini").isSome ∧
        (lookupPA b.prior_args "maxi").isSome) ∧
      (∀ b ∈ [blkSB], 1 ≤ b.N ∧
        (((lookupPA b.prior_args "mini").getD []).length = 1 ∨
          ((lookupPA b.prior_args "mini").getD []).length = b.N)) ∧
      ∃ f, boundsD [blkSB] = some f ∧
        ∀ b ∈ [blkSB],
          (((lookupPA b.prior_args "mini").getD []).length = 1 →
            f b.i0 = (((lookupPA b.prior_args "mini").getD []).getD 0 0,
              ((lookupPA b.prior_args "maxi").getD []).getD 0 0) ∧
            ∀ k, 1 ≤ k → k < b.N → f (b.i0 + k) = (0, 0)) ∧
          (((lookupPA b.prior_args "mini").getD []).length ≠ 1 →
            ∀ k, k < ((lookupPA b.prior_args "mini").getD []).length →
              f (b.i0 + k) = (((lookupPA b.prior_args "mini").getD []).getD k 0,
                ((lookupPA b.prior_args "maxi").getD []).getD k 0)) :=
  ⟨by decide, by decide, by decide,
    c8_bounds_characterization [blkSB] (by decide) (by decide) (by decide)⟩

/-! ## C10: in-place mutation and aliasing of `check_constrained` -/

theorem ccStoreAux_succ (desc : List Block) (fuel : ℕ) (st : Store)
    (tRef : ℕ) (sl : List ℚ) :
    ccStoreAux desc (fuel + 1) st tRef sl =
      if (scanStore desc st tRef sl false).2.2 then
        ccStoreAux desc fuel (scanStore desc st tRef sl false).1 tRef
          (scanStore desc st tRef sl false).2.1
      else
        some ((scanStore desc st tRef sl false).1, tRef,
          (scanStore desc st tRef sl false).2.1,
          (scanStore desc st tRef sl false).2.2) := rfl

theorem ccStore_blk01_run :
    ((check_constrained_store [blk01] 2 [[23 / 10]] 0).map
        fun r => (readArr r.1 r.2.1, r.2.1)) = some ([3 / 10], 0) := by
  norm_num [check_constrained_store, ccStoreAux, scanStore, scanStoreBlock,
    readArr, writeArr, reflectUpperList, reflectLowerList, flipSignUpper,
    flipSignLower, anyAboveList, anyBelowList, blk01, List.mapIdx_cons]

/-- C10 counterexample: in the store-passing model of numpy view semantics,
running `check_constrained` on the caller's buffer `[2.3]` (bounds
`[0, 1]`) leaves that same buffer — the one the returned reference still
points to — holding `[0.3] ≠ [2.3]`: the call mutates the caller's input
position array in place, contrary to the claimed frame condition. -/
theorem c10_no_mutation_counterexample :
    ((check_constrained_store [blk01] 2 [[23 / 10]] 0).map
        fun r => (readArr r.1 r.2.1, r.2.1)) = some ([3 / 10], 0) ∧
      readArr [[23 / 10]] 0 = [23 / 10] ∧
      [(3 : ℚ) / 10] ≠ [(23 : ℚ) / 10] :=
  ⟨ccStore_blk01_run, rfl, by norm_num⟩

theorem ccStoreAux_ref (desc : List Block) :
    ∀ (fuel : ℕ) (st : Store) (tRef : ℕ) (sl : List ℚ)
      (r : Store × ℕ × List ℚ × Bool),
      ccStoreAux desc fuel st tRef sl = some r → r.2.1 = tRef
  | 0, _, _, _, _, h => by cases h
  | fuel + 1, st, tRef, sl, r, h => by
    rw [ccStoreAux_succ] at h
    by_cases hf : (scanStore desc st tRef sl false).2.2
    · rw [if_pos hf] at h
      exact ccStoreAux_ref desc fuel _ _ _ r h
    · rw [if_neg hf] at h
      cases h
      rfl

/-- C10 (amended): `set_parameters` mutates the descriptor's `params`
cache, and `check_constrained` additionally mutates the caller's input
theta array in place (numpy masked-slice assignments write through the
view); the "corrected position" it returns is that very same array — the
returned reference always equals the input reference — not a fresh copy.
The sign vector, by contrast, is freshly allocated inside the call. -/
theorem c10_returns_input_array (desc : List Block) (fuel : ℕ) (st : Store)
    (tRef : ℕ) (r : Store × ℕ × List ℚ × Bool)
    (h : check_constrained_store desc fuel st tRef = some r) : r.2.1 = tRef :=
  ccStoreAux_ref desc fuel st tRef _ r h

/-- C10 witness: the aliasing theorem applied to the concrete mutating run
above. -/
theorem c10_returns_input_array_witness :
    ((check_constrained_store [blk01] 2 [[23 / 10]] 0).map fun r => r.2.1)
      = some 0 := by
  cases hr : check_constrained_store [blk01] 2 [[23 / 10]] 0 with
  | none =>
    have h := ccStore_blk01_run
    rw [hr] at h
    cases h
  | some r =>
    rw [Option.map_some']
    exact congrArg some (c10_returns_input_array [blk01] 2 [[23 / 10]] 0 r hr)
